import Mathlib

/-!
Shallow embedding of `domrg-sys/laureonmrp`, a Django facility-management
application.  The embedding covers the `location_configuration` data model
(`LocationType`, `Location`, `LocationSpace` from
`location_configuration/models.py`), the forms in
`location_configuration/forms.py`, the views in
`location_configuration/views.py`, and the generic mixin / delete view in
`core/views.py`.

Database rows are Lean structures; a database table is a `List` of rows;
Django object references (`ForeignKey`, `ManyToManyField`) are stored as
primary-key values (`Nat`), matching how Django persists them, and are
resolved through explicit lookup functions.  Python `while` loops and
unbounded recursion are embedded with an explicit fuel argument; the
theorems show the chosen fuel suffices.
-/

/-- One row of the `LocationType` table (`location_configuration/models.py`).
`allowed_parents` holds the primary keys of the related types of the
self-referential many-to-many field; the reverse accessor
`allowed_children` is computed by `allowedChildrenIds` below. -/
structure LocationType where
  id : Nat
  name : String
  icon : String := ""
  allowed_parents : List Nat := []
  can_store_inventory : Bool := false
  can_store_samples : Bool := false
  has_spaces : Bool := false
  rows : Option Nat := none
  columns : Option Nat := none
deriving DecidableEq, Repr

/-- One row of the `Location` table: `location_type` and `parent` are the
stored foreign-key values. -/
structure Location where
  id : Nat
  name : String
  location_type : Nat
  parent : Option Nat := none
deriving DecidableEq, Repr

/-- One row of the `LocationSpace` table. -/
structure LocationSpace where
  parent_location : Nat
  row : Nat
  column : Nat
  child_location : Option Nat := none
deriving DecidableEq, Repr

/-- Primary-key lookup in the `LocationType` table. -/
def findType (types : List LocationType) (i : Nat) : Option LocationType :=
  types.find? (fun t => t.id = i)

/-- Primary-key lookup in the `Location` table. -/
def findLoc (locs : List Location) (i : Nat) : Option Location :=
  locs.find? (fun l => l.id = i)

/-- The primary keys present in the `LocationType` table. -/
def typeIds (types : List LocationType) : List Nat :=
  types.map (fun t => t.id)

/-- `t.allowed_children.all()`: the reverse accessor of the
`allowed_parents` many-to-many field — the ids of every type that lists
`i` among its allowed parents. -/
def allowedChildrenIds (types : List LocationType) (i : Nat) : List Nat :=
  (types.filter (fun t => i ∈ t.allowed_parents)).map (fun t => t.id)

/-- `t.allowed_parents.all()` for the type with id `i` (empty when `i` is
not in the table). -/
def parentsOf (types : List LocationType) (i : Nat) : List Nat :=
  ((findType types i).map (fun t => t.allowed_parents)).getD []

/-- The parent id stored on the location with id `i`, read back from the
table (one step of Django's `ancestor = ancestor.parent`). -/
def parentOf (locs : List Location) (i : Nat) : Option Nat :=
  (findLoc locs i).bind (fun l => l.parent)

/-- `Location._validate_parent_type`: returns `true` when the method
raises `ValidationError`.  It raises exactly when the location has a
parent, the type's `allowed_parents` queryset is non-empty, and the
parent's type is not in it.  (Object references `self.parent` and
`self.location_type` are resolved by table lookup; a failed lookup cannot
happen for saved Django objects and is embedded as no error.) -/
def validate_parent_type (types : List LocationType) (locs : List Location)
    (l : Location) : Bool :=
  match l.parent with
  | none => false
  | some pid =>
    match findLoc locs pid, findType types l.location_type with
    | some p, some t =>
      decide (t.allowed_parents ≠ []) && decide (p.location_type ∉ t.allowed_parents)
    | _, _ => false

/-- The `while ancestor is not None` loop of
`Location._validate_no_circular_dependency`, with fuel for the unbounded
walk; returns `true` when the method raises `ValidationError`.  Fuel `0`
stands for a walk that has not yet ended (the Python loop would still be
running); the theorems require the chain to end within the given fuel. -/
def circularCheck (locs : List Location) (selfPk : Nat) :
    Nat → Option Nat → Bool
  | _, none => false
  | 0, some _ => false
  | fuel + 1, some a =>
    if a = selfPk then true
    else circularCheck locs selfPk fuel (parentOf locs a)

/-- The list of ancestors visited by the parent-chain walk, starting from
the stored parent: the specification-side description of "the chain of
parents starting from its parent". -/
def chainFrom (locs : List Location) : Nat → Option Nat → List Nat
  | _, none => []
  | 0, some _ => []
  | fuel + 1, some a => a :: chainFrom locs fuel (parentOf locs a)

/-- Iterating the stored-parent step; `iterParent locs fuel s = none`
says the parent chain starting at `s` ends (reaches a parentless
location) within `fuel` steps, i.e. the chain is finite. -/
def iterParent (locs : List Location) : Nat → Option Nat → Option Nat
  | 0, s => s
  | fuel + 1, s =>
    match s with
    | none => none
    | some a => iterParent locs fuel (parentOf locs a)

/-- `Location.clean`: runs the parent-type validation, then the
circular-dependency validation; the result is `Except.error` with the
message of the first check that raises, `Except.ok` when both pass. -/
def location_clean (types : List LocationType) (locs : List Location)
    (l : Location) (fuel : Nat) : Except String Unit :=
  if validate_parent_type types locs l then
    Except.error "Invalid parent"
  else if circularCheck locs l.id fuel l.parent then
    Except.error "Circular dependency detected"
  else
    Except.ok ()

/-- `LocationSpace.clean`: returns `true` when the method raises
`ValidationError` — the space holds a child location, the parent type's
`allowed_children` queryset is non-empty, and the child's type is not in
it. -/
def locationSpace_clean (types : List LocationType) (locs : List Location)
    (s : LocationSpace) : Bool :=
  match s.child_location with
  | none => false
  | some cid =>
    match findLoc locs s.parent_location, findLoc locs cid with
    | some pl, some cl =>
      match findType types pl.location_type, findType types cl.location_type with
      | some pt, some ct =>
        let ac := allowedChildrenIds types pt.id
        decide (ac ≠ []) && decide (ct.id ∉ ac)
      | _, _ => false
    | _, _ => false

-- ========================================================================
-- C2: circular-dependency validation
-- ========================================================================

theorem circularCheck_iff_mem_chain (locs : List Location) (pk : Nat) :
    ∀ (fuel : Nat) (s : Option Nat), iterParent locs fuel s = none →
      (circularCheck locs pk fuel s = true ↔ pk ∈ chainFrom locs fuel s) := by
  intro fuel
  induction fuel with
  | zero =>
    intro s hs
    simp only [iterParent] at hs
    subst hs
    simp [circularCheck, chainFrom]
  | succ n ih =>
    intro s hs
    cases s with
    | none => simp [circularCheck, chainFrom]
    | some a =>
      simp only [iterParent] at hs
      by_cases ha : a = pk
      · subst ha
        simp [circularCheck, chainFrom]
      · have := ih (parentOf locs a) hs
        simp only [circularCheck, chainFrom, if_neg ha]
        rw [this]
        constructor
        · intro h; exact List.mem_cons_of_mem _ h
        · intro h
          rcases List.mem_cons.mp h with h1 | h1
          · exact absurd h1.symm ha
          · exact h1

/-- C2: provided the stored parent chain of `l` is finite (it ends within
`fuel` steps), the circular-dependency validation of `Location.clean`
raises `ValidationError` if and only if `l`'s own primary key occurs in
the chain of parents starting from `l.parent`; consequently a location
that passes `Location.clean` is never its own ancestor, and a location
whose pk occurs in its ancestor chain never passes `Location.clean`. -/
theorem clean_circular_dependency (types : List LocationType)
    (locs : List Location) (l : Location) (fuel : Nat)
    (hfin : iterParent locs fuel l.parent = none) :
    (circularCheck locs l.id fuel l.parent = true ↔
        l.id ∈ chainFrom locs fuel l.parent) ∧
      (location_clean types locs l fuel = Except.ok () →
        l.id ∉ chainFrom locs fuel l.parent) ∧
      (l.id ∈ chainFrom locs fuel l.parent →
        ∀ u, location_clean types locs l fuel ≠ Except.ok u) := by
  have key := circularCheck_iff_mem_chain locs l.id fuel l.parent hfin
  refine ⟨key, ?_, ?_⟩
  · intro hok hmem
    have hc : circularCheck locs l.id fuel l.parent = true := key.mpr hmem
    unfold location_clean at hok
    by_cases hp : validate_parent_type types locs l
    · simp [hp] at hok
    · simp [hp, hc] at hok
  · intro hmem u hok
    have hc : circularCheck locs l.id fuel l.parent = true := key.mpr hmem
    unfold location_clean at hok
    by_cases hp : validate_parent_type types locs l
    · simp [hp] at hok
    · simp [hp, hc] at hok

/-- Witness for C2 at a concrete two-location table: location 1 has
parent 2, location 2 is a root; the chain is finite, the check passes,
and `clean` succeeds. -/
theorem clean_circular_dependency_witness :
    (iterParent [⟨1, "a", 10, some 2⟩, ⟨2, "b", 10, none⟩] 3 (some 2) = none) ∧
      (circularCheck [⟨1, "a", 10, some 2⟩, ⟨2, "b", 10, none⟩] 1 3 (some 2) = true ↔
        1 ∈ chainFrom [⟨1, "a", 10, some 2⟩, ⟨2, "b", 10, none⟩] 3 (some 2)) := by
  refine ⟨by decide, ?_⟩
  exact (clean_circular_dependency [] [⟨1, "a", 10, some 2⟩, ⟨2, "b", 10, none⟩]
    ⟨1, "a", 10, some 2⟩ 3 (by decide)).1

-- ========================================================================
-- C3: allowed-parent / allowed-child validation
-- ========================================================================

/-- C3: the allowed-parent/child rules govern both containment trees.
`Location._validate_parent_type` raises exactly when the location has a
parent, its type's `allowed_parents` is non-empty and the parent's type
is not among them; `LocationSpace.clean` raises exactly when the space
holds a child location, the parent type's `allowed_children` is
non-empty and the child's type is not among them.  In particular an
empty allowed set accepts any parent or child type. -/
theorem allowed_type_rules (types : List LocationType) (locs : List Location)
    (l : Location) (s : LocationSpace) :
    (validate_parent_type types locs l = true ↔
      ∃ pid p t, l.parent = some pid ∧ findLoc locs pid = some p ∧
        findType types l.location_type = some t ∧
        t.allowed_parents ≠ [] ∧ p.location_type ∉ t.allowed_parents) ∧
    (locationSpace_clean types locs s = true ↔
      ∃ cid pl cl pt ct, s.child_location = some cid ∧
        findLoc locs s.parent_location = some pl ∧ findLoc locs cid = some cl ∧
        findType types pl.location_type = some pt ∧
        findType types cl.location_type = some ct ∧
        allowedChildrenIds types pt.id ≠ [] ∧
        ct.id ∉ allowedChildrenIds types pt.id) := by
  constructor
  · unfold validate_parent_type
    cases hpar : l.parent with
    | none => simp
    | some pid =>
      cases hp : findLoc locs pid with
      | none => simp [hp]
      | some p =>
        cases ht : findType types l.location_type with
        | none => simp [hp, ht]
        | some t =>
          simp only [hp, ht, Bool.and_eq_true, decide_eq_true_eq]
          constructor
          · rintro ⟨h1, h2⟩
            exact ⟨pid, p, t, rfl, hp, rfl, h1, h2⟩
          · rintro ⟨pid', p', t', hpid, hp', ht', h1, h2⟩
            injection hpid with h
            subst h
            injection ht' with h
            subst h
            rw [hp] at hp'
            injection hp' with h
            subst h
            exact ⟨h1, h2⟩
  · unfold locationSpace_clean
    cases hc : s.child_location with
    | none => simp
    | some cid =>
      cases hpl : findLoc locs s.parent_location with
      | none => simp [hpl]
      | some pl =>
        cases hcl : findLoc locs cid with
        | none => simp [hpl, hcl]
        | some cl =>
          cases hpt : findType types pl.location_type with
          | none => simp [hpl, hcl, hpt]
          | some pt =>
            cases hct : findType types cl.location_type with
            | none => simp [hpl, hcl, hpt, hct]
            | some ct =>
              simp only [hpl, hcl, hpt, hct, Bool.and_eq_true, decide_eq_true_eq]
              constructor
              · rintro ⟨h1, h2⟩
                exact ⟨cid, pl, cl, pt, ct, rfl, rfl, hcl, hpt, hct, h1, h2⟩
              · rintro ⟨cid', pl', cl', pt', ct', hcid, h3, h4, h5, h6, h1, h2⟩
                injection hcid with h
                subst h
                injection h3 with h
                subst h
                rw [hpt] at h5
                injection h5 with h
                subst h
                rw [hcl] at h4
                injection h4 with h
                subst h
                rw [hct] at h6
                injection h6 with h
                subst h
                exact ⟨h1, h2⟩

-- ========================================================================
-- C5: in-use constraints on EditLocationTypeForm and the delete action
-- ========================================================================

/-- `type_obj.location_set.exists()` / `self.instance.location_set.exists()`:
whether any `Location` row references the type `tid`. -/
def typeInUse (locs : List Location) (tid : Nat) : Bool :=
  locs.any (fun l => l.location_type = tid)

/-- `Location.objects.filter(location_type=..., parent__isnull=False)
.values_list('parent__location_type_id', flat=True).distinct()`:
the distinct type ids of the parents of the locations whose type is
`tid`. -/
def inUseParentTypeIds (locs : List Location) (tid : Nat) : List Nat :=
  (((locs.filter (fun l => l.location_type = tid && l.parent ≠ none)).filterMap
      (fun l => l.parent.bind (fun pid => (findLoc locs pid).map
        (fun p => p.location_type))))).dedup

/-- `EditLocationTypeForm.clean_allowed_parents`: in-use parent type ids
missing from the submission are added back (the queryset union
`submitted_parents | missing_parents`); otherwise the submitted value is
returned unchanged. -/
def clean_allowed_parents (locs : List Location) (instPk : Nat)
    (submitted : List Nat) : List Nat :=
  if (inUseParentTypeIds locs instPk).filter (fun p => p ∉ submitted) ≠ [] then
    submitted ++ (inUseParentTypeIds locs instPk).filter (fun p => p ∉ submitted)
  else
    submitted

/-- The data a user submits to the location-type edit form. -/
structure LocationTypeSubmission where
  name : String
  icon : String := ""
  allowed_parents : List Nat := []
  can_store_inventory : Bool := false
  can_store_samples : Bool := false
  has_spaces : Bool := false
  rows : Option Nat := none
  columns : Option Nat := none
deriving DecidableEq, Repr

/-- The cleaned data of `EditLocationTypeForm` for an existing instance.
`_disable_fields_if_in_use` disables `has_spaces`, `rows` and `columns`
when the instance is in use; a disabled Django form field ignores the
submitted data and keeps the value taken from the instance, which is
embedded here by the `if` on `typeInUse`.  `allowed_parents` goes
through `clean_allowed_parents`. -/
def editLocationTypeForm_cleaned (locs : List Location)
    (inst : LocationType) (sub : LocationTypeSubmission) : LocationTypeSubmission :=
  let inUse := typeInUse locs inst.id
  { name := sub.name
    icon := sub.icon
    allowed_parents := clean_allowed_parents locs inst.id sub.allowed_parents
    can_store_inventory := sub.can_store_inventory
    can_store_samples := sub.can_store_samples
    has_spaces := if inUse then inst.has_spaces else sub.has_spaces
    rows := if inUse then inst.rows else sub.rows
    columns := if inUse then inst.columns else sub.columns }

/-- The `data-action-info` payload built by the types-tab view for one
action button; only the fields the claims speak about are kept. -/
structure ActionData where
  icon : String
  label : String
  cls : String
  modal_target : Option String := none
deriving DecidableEq, Repr

/-- `LocationTypesTabView._get_delete_action_data`: the delete button is
rendered disabled unless the user may delete the type and the type is
not in use. -/
def get_delete_action_data (canDelete isInUse : Bool) : ActionData :=
  if !(canDelete && !isInUse) then
    { icon := "delete", label := "Delete", cls := "btn-icon-disable" }
  else
    { icon := "delete", label := "Delete", cls := "btn-icon-red",
      modal_target := some "#delete-confirmation-modal" }

/-- C5: for a `LocationType` that is in use (referenced by at least one
`Location`): editing leaves `has_spaces`, `rows` and `columns` at their
stored values whatever is submitted; every type that is currently the
parent type of one of the instance's locations is still in
`allowed_parents` after cleaning; and the delete action for the type is
rendered disabled whatever the user's delete permission is. -/
theorem in_use_type_locked (locs : List Location) (inst : LocationType)
    (sub : LocationTypeSubmission) (canDelete : Bool)
    (hInUse : typeInUse locs inst.id = true) :
    (editLocationTypeForm_cleaned locs inst sub).has_spaces = inst.has_spaces ∧
      (editLocationTypeForm_cleaned locs inst sub).rows = inst.rows ∧
      (editLocationTypeForm_cleaned locs inst sub).columns = inst.columns ∧
      (∀ p ∈ inUseParentTypeIds locs inst.id,
        p ∈ (editLocationTypeForm_cleaned locs inst sub).allowed_parents) ∧
      (get_delete_action_data canDelete (typeInUse locs inst.id)).cls =
        "btn-icon-disable" := by
  refine ⟨?_, ?_, ?_, ?_, ?_⟩
  · simp [editLocationTypeForm_cleaned, hInUse]
  · simp [editLocationTypeForm_cleaned, hInUse]
  · simp [editLocationTypeForm_cleaned, hInUse]
  · intro p hp
    simp only [editLocationTypeForm_cleaned]
    unfold clean_allowed_parents
    by_cases hsub : p ∈ sub.allowed_parents
    · split
      · exact List.mem_append_left _ hsub
      · exact hsub
    · have hpf : p ∈ (inUseParentTypeIds locs inst.id).filter
          (fun q => decide (q ∉ sub.allowed_parents)) :=
        List.mem_filter.mpr ⟨hp, by simpa using hsub⟩
      have hne : (inUseParentTypeIds locs inst.id).filter
          (fun q => decide (q ∉ sub.allowed_parents)) ≠ [] := by
        intro h0
        rw [h0] at hpf
        simp at hpf
      rw [if_pos hne]
      exact List.mem_append_right _ hpf
  · rw [hInUse]
    simp [get_delete_action_data]

/-- Witness for C5: a table with one location of type 7 placed inside a
location of type 9; type 7 is in use, so its grid fields stay as stored,
type 9 is kept among the allowed parents, and the delete button is
disabled even for a user with delete permission. -/
theorem in_use_type_locked_witness :
    (typeInUse [⟨1, "p", 9, none⟩, ⟨2, "c", 7, some 1⟩] 7 = true) ∧
      ((editLocationTypeForm_cleaned [⟨1, "p", 9, none⟩, ⟨2, "c", 7, some 1⟩]
          ⟨7, "Shelf", "", [9], false, false, true, some 2, some 3⟩
          ⟨"Shelf", "", [], false, false, false, none, none⟩).has_spaces = true ∧
        (editLocationTypeForm_cleaned [⟨1, "p", 9, none⟩, ⟨2, "c", 7, some 1⟩]
          ⟨7, "Shelf", "", [9], false, false, true, some 2, some 3⟩
          ⟨"Shelf", "", [], false, false, false, none, none⟩).rows = some 2 ∧
        (editLocationTypeForm_cleaned [⟨1, "p", 9, none⟩, ⟨2, "c", 7, some 1⟩]
          ⟨7, "Shelf", "", [9], false, false, true, some 2, some 3⟩
          ⟨"Shelf", "", [], false, false, false, none, none⟩).columns = some 3 ∧
        (∀ p ∈ inUseParentTypeIds [⟨1, "p", 9, none⟩, ⟨2, "c", 7, some 1⟩] 7,
          p ∈ (editLocationTypeForm_cleaned [⟨1, "p", 9, none⟩, ⟨2, "c", 7, some 1⟩]
            ⟨7, "Shelf", "", [9], false, false, true, some 2, some 3⟩
            ⟨"Shelf", "", [], false, false, false, none, none⟩).allowed_parents) ∧
        (get_delete_action_data true
          (typeInUse [⟨1, "p", 9, none⟩, ⟨2, "c", 7, some 1⟩] 7)).cls =
          "btn-icon-disable") := by
  refine ⟨by decide, ?_⟩
  exact in_use_type_locked [⟨1, "p", 9, none⟩, ⟨2, "c", 7, some 1⟩]
    ⟨7, "Shelf", "", [9], false, false, true, some 2, some 3⟩
    ⟨"Shelf", "", [], false, false, false, none, none⟩ true (by decide)

-- ========================================================================
-- Core views: HTTP responses, sessions, C6 / C7 / C10
-- ========================================================================

/-- The responses the embedded views can produce. -/
inductive HttpResponse where
  | redirect (url : String)
  | json (status : Nat) (body : String)
  | forbidden
  | notFound
deriving DecidableEq, Repr

/-- Whether a response is a redirect. -/
def isRedirect : HttpResponse → Bool
  | HttpResponse.redirect _ => true
  | _ => false

/-- Django session assignment `session[k] = v`: the key is overwritten. -/
def sessionSet (s : List (String × String)) (k v : String) :
    List (String × String) :=
  (s.filter (fun e => e.1 ≠ k)) ++ [(k, v)]

/-- Session read access. -/
def sessionGet (s : List (String × String)) (k : String) : Option String :=
  (s.find? (fun e => e.1 = k)).map (fun e => e.2)

/-- `GenericFormHandlingMixin.form_invalid` (`core/views.py`): stores the
form errors and data in the session under the keys
`form_errors_<name>` and `form_data_<name>`, then redirects to the
success URL. -/
def form_invalid (session : List (String × String))
    (formName errorsJson formData successUrl : String) :
    List (String × String) × HttpResponse :=
  (sessionSet (sessionSet session ("form_errors_" ++ formName) errorsJson)
      ("form_data_" ++ formName) formData,
    HttpResponse.redirect successUrl)

/-- `AddLocationTypeView.post` (`location_configuration/views.py`): a valid
form is saved and answered with a success JSON; an invalid form is
answered in place with the errors as JSON and HTTP status 400.  The form
body is abstracted to its validity, the row it would create and its
rendered errors.  The session is not touched on either path. -/
def addLocationTypeView_post (types : List LocationType)
    (session : List (String × String)) (formValid : Bool)
    (newType : LocationType) (errors : String) :
    List LocationType × List (String × String) × HttpResponse :=
  if formValid then
    (types ++ [newType], session, HttpResponse.json 200 "success")
  else
    (types, session, HttpResponse.json 400 errors)

/-- C6 counterexample: an invalid create submission to the location-type
view is answered with an in-place 400 JSON response, not with a redirect,
and the session stays empty — no `form_errors_` / `form_data_` keys are
written.  This contradicts the claim that every module handles invalid
submissions with the session-based Post-Redirect-Get pattern. -/
theorem prg_claim_counterexample :
    (addLocationTypeView_post [] [] false
        { id := 1, name := "T" } "bad").2.2 = HttpResponse.json 400 "bad" ∧
      isRedirect (addLocationTypeView_post [] [] false
        { id := 1, name := "T" } "bad").2.2 = false ∧
      (addLocationTypeView_post [] [] false
        { id := 1, name := "T" } "bad").2.1 = [] := by
  refine ⟨rfl, rfl, rfl⟩

/-- C6 amended: `GenericFormHandlingMixin.form_invalid` does implement the
session-based Post-Redirect-Get pattern — it stores the errors under
`form_errors_<name>`, the data under `form_data_<name>` and redirects to
the success URL — but the create/edit views of `location_configuration`
(the only module with form posts) do not use it: an invalid submission is
answered in place with a 400 JSON error response and an unchanged
session. -/
theorem prg_mixin_vs_views (session : List (String × String))
    (formName errorsJson formData successUrl : String)
    (types : List LocationType) (newType : LocationType) (errors : String)
    (hname : ("form_errors_" ++ formName : String) ≠ "form_data_" ++ formName) :
    sessionGet (form_invalid session formName errorsJson formData successUrl).1
        ("form_errors_" ++ formName) = some errorsJson ∧
      sessionGet (form_invalid session formName errorsJson formData successUrl).1
        ("form_data_" ++ formName) = some formData ∧
      (form_invalid session formName errorsJson formData successUrl).2 =
        HttpResponse.redirect successUrl ∧
      addLocationTypeView_post types session false newType errors =
        (types, session, HttpResponse.json 400 errors) := by
  refine ⟨?_, ?_, rfl, rfl⟩
  · unfold form_invalid sessionSet sessionGet
    rw [List.filter_append, List.find?_append, List.find?_append]
    have h1 : List.find?
        (fun e => decide (e.1 = "form_errors_" ++ formName))
        ((session.filter (fun e => e.1 ≠ "form_errors_" ++ formName)).filter
          (fun e => e.1 ≠ "form_data_" ++ formName)) = none := by
      rw [List.find?_eq_none]
      intro e he
      have := (List.mem_filter.mp (List.mem_filter.mp he).1).2
      simpa using this
    rw [h1]
    have h2 : List.find?
        (fun e => decide (e.1 = "form_errors_" ++ formName))
        (List.filter (fun e => e.1 ≠ "form_data_" ++ formName)
          [(("form_errors_" ++ formName : String), errorsJson)]) =
        some ("form_errors_" ++ formName, errorsJson) := by
      simp [List.filter_singleton, hname]
    rw [h2]
    rfl
  · unfold form_invalid sessionSet sessionGet
    rw [List.filter_append, List.find?_append, List.find?_append]
    have h1 : List.find?
        (fun e => decide (e.1 = "form_data_" ++ formName))
        ((session.filter (fun e => e.1 ≠ "form_errors_" ++ formName)).filter
          (fun e => e.1 ≠ "form_data_" ++ formName)) = none := by
      rw [List.find?_eq_none]
      intro e he
      have := (List.mem_filter.mp he).2
      simpa using this
    have h2 : List.find?
        (fun e => decide (e.1 = "form_data_" ++ formName))
        (List.filter (fun e => e.1 ≠ "form_data_" ++ formName)
          [(("form_errors_" ++ formName : String), errorsJson)]) = none := by
      rw [List.find?_eq_none]
      intro e he
      have := (List.mem_filter.mp he).2
      simpa using this
    rw [h1, h2]
    simp

/-- Witness for the amended C6 theorem at a concrete form name. -/
theorem prg_mixin_vs_views_witness :
    sessionGet (form_invalid [] "add" "e" "d" "/types/").1 "form_errors_add" =
        some "e" ∧
      (form_invalid [] "add" "e" "d" "/types/").2 =
        HttpResponse.redirect "/types/" := by
  have h := prg_mixin_vs_views [] "add" "e" "d" "/types/" [] { id := 1, name := "T" }
    "bad" (by decide)
  exact ⟨h.1, h.2.2.1⟩

/-- A row of an arbitrary model table, as seen by `GenericDeleteView`:
identified by app label, model name and primary key.  `protectedRef`
records whether other rows reference it through an `on_delete=PROTECT`
foreign key, in which case `delete()` raises `ProtectedError`. -/
structure DbObject where
  app_label : String
  model_name : String
  pk : Nat
  protectedRef : Bool := false
deriving DecidableEq, Repr

/-- `get_object_or_404(Model, pk=pk)` after `apps.get_model(app_label,
model_name)`. -/
def findObj (db : List DbObject) (app model : String) (pk : Nat) :
    Option DbObject :=
  db.find? (fun o => o.app_label = app && o.model_name = model && o.pk = pk)

/-- `GenericDeleteView._user_has_permission`: the dynamically constructed
permission string. -/
def delete_perm_name (app model : String) : String :=
  app ++ ".delete_" ++ model.toLower

/-- The user-facing messages recorded with `django.contrib.messages`. -/
inductive Msg where
  | success
  | error
deriving DecidableEq, Repr

/-- `GenericDeleteView._delete_object`: deletes the row and records a
success message, or catches `ProtectedError` and records an error
message, leaving the table unchanged. -/
def delete_object (db : List DbObject) (obj : DbObject) :
    List DbObject × List Msg :=
  if obj.protectedRef then
    (db, [Msg.error])
  else
    (db.filter (fun o =>
      !(o.app_label = obj.app_label && o.model_name = obj.model_name &&
        o.pk = obj.pk)), [Msg.success])

/-- `reverse('main_menu:main_menu')`, the fallback redirect target. -/
def main_menu_url : String := "/main-menu/"

/-- `GenericDeleteView.post`: looks the object up (404 when absent), then
checks the delete permission (403 without it), then deletes and
redirects to the posted `success_url`, falling back to the main menu
URL. -/
def genericDeleteView_post (db : List DbObject) (perms : List String)
    (app model : String) (pk : Nat) (postSuccessUrl : Option String) :
    List DbObject × List Msg × HttpResponse :=
  match findObj db app model pk with
  | none => (db, [], HttpResponse.notFound)
  | some obj =>
    if delete_perm_name app model ∉ perms then
      (db, [], HttpResponse.forbidden)
    else
      ((delete_object db obj).1, (delete_object db obj).2,
        HttpResponse.redirect (postSuccessUrl.getD main_menu_url))

/-- C7: for an existing object, `GenericDeleteView.post` deletes it
exactly when the user holds `<app_label>.delete_<model_name>`: without
the permission the response is 403 and the table is unchanged; with it,
a `ProtectedError` leaves the table unchanged and records an error
message instead of propagating; a successful delete removes the object
(and only rows with its key); and every permitted case redirects to the
posted `success_url`. -/
theorem generic_delete_view_spec (db : List DbObject) (perms : List String)
    (app model : String) (pk : Nat) (url : String) (obj : DbObject)
    (hobj : findObj db app model pk = some obj) :
    (delete_perm_name app model ∉ perms →
      genericDeleteView_post db perms app model pk (some url) =
        (db, [], HttpResponse.forbidden)) ∧
      (delete_perm_name app model ∈ perms → obj.protectedRef = true →
        genericDeleteView_post db perms app model pk (some url) =
          (db, [Msg.error], HttpResponse.redirect url)) ∧
      (delete_perm_name app model ∈ perms → obj.protectedRef = false →
        (genericDeleteView_post db perms app model pk (some url)).2.2 =
            HttpResponse.redirect url ∧
          (genericDeleteView_post db perms app model pk (some url)).2.1 =
            [Msg.success] ∧
          findObj (genericDeleteView_post db perms app model pk (some url)).1
            app model pk = none ∧
          ∀ o ∈ db,
            (o.app_label = app ∧ o.model_name = model ∧ o.pk = pk) ∨
              o ∈ (genericDeleteView_post db perms app model pk (some url)).1) := by
  have hkey : obj.app_label = app ∧ obj.model_name = model ∧ obj.pk = pk := by
    have h0 := List.find?_some hobj
    simp only [Bool.and_eq_true, decide_eq_true_eq] at h0
    exact ⟨h0.1.1, h0.1.2, h0.2⟩
  refine ⟨?_, ?_, ?_⟩
  · intro hperm
    unfold genericDeleteView_post
    rw [hobj]
    simp [hperm]
  · intro hperm hprot
    unfold genericDeleteView_post
    rw [hobj]
    simp [hperm, delete_object, hprot]
  · intro hperm hprot
    unfold genericDeleteView_post
    rw [hobj]
    dsimp only
    rw [if_neg (not_not.mpr hperm)]
    unfold delete_object
    rw [if_neg (by simp [hprot])]
    refine ⟨rfl, rfl, ?_, ?_⟩
    · unfold findObj
      rw [List.find?_eq_none]
      intro o ho
      intro hcontra
      have h2 := (List.mem_filter.mp ho).2
      rw [hkey.1, hkey.2.1, hkey.2.2] at h2
      rw [hcontra] at h2
      simp at h2
    · intro o ho
      by_cases hmatch : o.app_label = app ∧ o.model_name = model ∧ o.pk = pk
      · exact Or.inl hmatch
      · refine Or.inr (List.mem_filter.mpr ⟨ho, ?_⟩)
        rw [hkey.1, hkey.2.1, hkey.2.2]
        have hor : (¬o.app_label = app ∨ ¬o.model_name = model) ∨ ¬o.pk = pk := by
          tauto
        simpa using hor

/-- Witness for C7: a one-row table whose row is protected; the user has
the permission, so the view records an error, keeps the row and
redirects. -/
theorem generic_delete_view_spec_witness :
    (findObj [⟨"app", "Widget", 5, true⟩] "app" "Widget" 5 =
        some ⟨"app", "Widget", 5, true⟩) ∧
      (delete_perm_name "app" "Widget" ∈ [delete_perm_name "app" "Widget"]) ∧
      genericDeleteView_post [⟨"app", "Widget", 5, true⟩]
          [delete_perm_name "app" "Widget"] "app" "Widget" 5 (some "/back/") =
        ([⟨"app", "Widget", 5, true⟩], [Msg.error],
          HttpResponse.redirect "/back/") := by
  refine ⟨by decide, List.mem_singleton.mpr rfl, ?_⟩
  exact (generic_delete_view_spec [⟨"app", "Widget", 5, true⟩]
    [delete_perm_name "app" "Widget"] "app" "Widget" 5 "/back/"
    ⟨"app", "Widget", 5, true⟩ (by decide)).2.1
    (List.mem_singleton.mpr rfl) rfl

/-- C10: `GenericDeleteView.post` performs the object lookup before the
permission check: naming a nonexistent object yields 404 whatever the
user's permissions, while naming an existing object without the delete
permission yields 403 — so the status code reveals whether the object
exists independently of authorization. -/
theorem delete_view_lookup_before_permission (db : List DbObject)
    (perms : List String) (app model : String) (pk : Nat)
    (postSuccessUrl : Option String) :
    (findObj db app model pk = none →
      (genericDeleteView_post db perms app model pk postSuccessUrl).2.2 =
        HttpResponse.notFound) ∧
      (∀ obj, findObj db app model pk = some obj →
        delete_perm_name app model ∉ perms →
        (genericDeleteView_post db perms app model pk postSuccessUrl).2.2 =
          HttpResponse.forbidden) := by
  constructor
  · intro hnone
    unfold genericDeleteView_post
    rw [hnone]
  · intro obj hobj hperm
    unfold genericDeleteView_post
    rw [hobj]
    simp [hperm]

/-- Witness for C10: with no permissions at all, a missing object still
answers 404 and an existing one answers 403. -/
theorem delete_view_lookup_before_permission_witness :
    (findObj [⟨"app", "Widget", 5, false⟩] "app" "Widget" 6 = none) ∧
      ((genericDeleteView_post [⟨"app", "Widget", 5, false⟩] [] "app"
          "Widget" 6 none).2.2 = HttpResponse.notFound) ∧
      ((genericDeleteView_post [⟨"app", "Widget", 5, false⟩] [] "app"
          "Widget" 5 none).2.2 = HttpResponse.forbidden) := by
  refine ⟨by decide, ?_, ?_⟩
  · exact (delete_view_lookup_before_permission [⟨"app", "Widget", 5, false⟩]
      [] "app" "Widget" 6 none).1 (by decide)
  · exact (delete_view_lookup_before_permission [⟨"app", "Widget", 5, false⟩]
      [] "app" "Widget" 5 none).2 ⟨"app", "Widget", 5, false⟩ (by decide)
      (by decide)

-- ========================================================================
-- C9: EditLocationForm locks the type of a location with children
-- ========================================================================

/-- `location.children.exists()`: whether any location stores `lid` as its
parent. -/
def hasChildren (locs : List Location) (lid : Nat) : Bool :=
  locs.any (fun l => l.parent = some lid)

/-- `EditLocationForm.__init__` sets
`self.fields['location_type'].disabled = True` exactly when the instance
has children. -/
def editLocation_type_disabled (locs : List Location) (inst : Location) : Bool :=
  hasChildren locs inst.id

/-- The data a user submits to the location edit form. -/
structure LocationSubmission where
  name : String
  location_type : Nat
  parent : Option Nat := none
deriving DecidableEq, Repr

/-- The cleaned data of `EditLocationForm`: `clean_location_type` returns
the instance's stored type when the field is disabled (Django itself also
ignores the submitted data of a disabled field), and the submitted type
otherwise; the other fields are cleaned independently of that lock. -/
def editLocationForm_cleaned (locs : List Location) (inst : Location)
    (sub : LocationSubmission) : LocationSubmission :=
  { name := sub.name
    location_type :=
      if editLocation_type_disabled locs inst then inst.location_type
      else sub.location_type
    parent := sub.parent }

/-- C9: for a saved location with at least one child, the edit form
never changes `location_type`: the field is disabled and the cleaned
value equals the stored type whatever was submitted, while the cleaned
`name` and `parent` still come from the submission. -/
theorem edit_location_type_locked (locs : List Location) (inst : Location)
    (hch : hasChildren locs inst.id = true) :
    editLocation_type_disabled locs inst = true ∧
      ∀ sub : LocationSubmission,
        (editLocationForm_cleaned locs inst sub).location_type =
            inst.location_type ∧
          (editLocationForm_cleaned locs inst sub).name = sub.name ∧
          (editLocationForm_cleaned locs inst sub).parent = sub.parent := by
  have hd : editLocation_type_disabled locs inst = true := hch
  refine ⟨hd, fun sub => ⟨?_, rfl, rfl⟩⟩
  simp [editLocationForm_cleaned, hd]

/-- Witness for C9: location 1 has a child (location 2), so submitting
type 99 leaves the cleaned type at the stored value 7. -/
theorem edit_location_type_locked_witness :
    (hasChildren [⟨1, "p", 7, none⟩, ⟨2, "c", 8, some 1⟩] 1 = true) ∧
      (editLocationForm_cleaned [⟨1, "p", 7, none⟩, ⟨2, "c", 8, some 1⟩]
          ⟨1, "p", 7, none⟩ ⟨"p2", 99, none⟩).location_type = 7 := by
  refine ⟨by decide, ?_⟩
  exact ((edit_location_type_locked [⟨1, "p", 7, none⟩, ⟨2, "c", 8, some 1⟩]
    ⟨1, "p", 7, none⟩ (by decide)).2 ⟨"p2", 99, none⟩).1

-- ========================================================================
-- C8: the grid returned by get_location_grid
-- ========================================================================

/-- One cell of the grid JSON built by `get_location_grid`. -/
structure GridCell where
  row : Nat
  column : Nat
  is_occupied : Bool
  occupant_name : Option String
deriving DecidableEq, Repr

/-- The JSON answer of `get_location_grid` for an existing location:
either the bare `has_spaces: False` object or the full grid payload. -/
inductive GridResp where
  | noSpaces
  | withGrid (rows columns : Nat) (grid : List (List GridCell))
deriving DecidableEq, Repr

/-- The `occupied_spaces` dict comprehension: one entry per space of the
location whose `child_location` is set, keyed by `(row, column)` with the
child's name as value.  (The name lookup of the child row always
succeeds for consistent foreign keys; a dangling reference drops the
entry.) -/
def occupiedEntries (locs : List Location) (spaces : List LocationSpace)
    (lid : Nat) : List ((Nat × Nat) × String) :=
  (spaces.filter (fun s =>
      s.parent_location = lid && s.child_location ≠ none)).filterMap
    (fun s => s.child_location.bind (fun cid =>
      (findLoc locs cid).map (fun cl => ((s.row, s.column), cl.name))))

/-- Python dict lookup on the entry list: the last binding of a key
wins. -/
def dictFind (d : List ((Nat × Nat) × String)) (k : Nat × Nat) :
    Option String :=
  (d.reverse.find? (fun e => e.1 = k)).map (fun e => e.2)

/-- `get_location_grid` (`location_configuration/views.py`): `none` models
the 404 of a missing location (or the type error of unset `rows` /
`columns`); otherwise the `has_spaces` flag decides between the bare
answer and the full rows-by-columns grid with 1-based coordinates. -/
def get_location_grid (types : List LocationType) (locs : List Location)
    (spaces : List LocationSpace) (location_id : Nat) : Option GridResp :=
  match findLoc locs location_id with
  | none => none
  | some loc =>
    match findType types loc.location_type with
    | none => none
    | some t =>
      if !t.has_spaces then some GridResp.noSpaces
      else
        match t.rows, t.columns with
        | some r, some c =>
          some (GridResp.withGrid r c
            ((List.range r).map (fun r0 =>
              (List.range c).map (fun c0 =>
                { row := r0 + 1, column := c0 + 1,
                  is_occupied :=
                    (dictFind (occupiedEntries locs spaces location_id)
                      (r0 + 1, c0 + 1)).isSome,
                  occupant_name :=
                    dictFind (occupiedEntries locs spaces location_id)
                      (r0 + 1, c0 + 1) }))))
        | _, _ => none

theorem dictFind_occupiedEntries (locs : List Location)
    (spaces : List LocationSpace) (lid : Nat)
    (huniq : spaces.Pairwise (fun a b =>
      ¬(a.parent_location = b.parent_location ∧ a.row = b.row ∧
        a.column = b.column)))
    (r c : Nat) (nm : String) :
    dictFind (occupiedEntries locs spaces lid) (r, c) = some nm ↔
      ∃ s ∈ spaces, s.parent_location = lid ∧ s.row = r ∧ s.column = c ∧
        ∃ cid cl, s.child_location = some cid ∧ findLoc locs cid = some cl ∧
          cl.name = nm := by
  have hsymm : Symmetric (fun a b : LocationSpace =>
      ¬(a.parent_location = b.parent_location ∧ a.row = b.row ∧
        a.column = b.column)) := by
    intro a b hab hba
    exact hab ⟨hba.1.symm, hba.2.1.symm, hba.2.2.symm⟩
  have hmem_occ : ∀ e, e ∈ occupiedEntries locs spaces lid ↔
      ∃ s ∈ spaces, s.parent_location = lid ∧
        ∃ cid cl, s.child_location = some cid ∧ findLoc locs cid = some cl ∧
          e = ((s.row, s.column), cl.name) := by
    intro e
    unfold occupiedEntries
    rw [List.mem_filterMap]
    constructor
    · rintro ⟨s, hsf, hfs⟩
      rcases List.mem_filter.mp hsf with ⟨hsmem, hcond⟩
      simp only [Bool.and_eq_true, decide_eq_true_eq] at hcond
      rcases Option.bind_eq_some.mp hfs with ⟨cid, hcid, hrest⟩
      rcases Option.map_eq_some'.mp hrest with ⟨cl, hcl, he⟩
      exact ⟨s, hsmem, hcond.1, cid, cl, hcid, hcl, he.symm⟩
    · rintro ⟨s, hsmem, hpar, cid, cl, hcid, hcl, he⟩
      refine ⟨s, List.mem_filter.mpr ⟨hsmem, ?_⟩, ?_⟩
      · simp [hpar, hcid]
      · exact Option.bind_eq_some.mpr
          ⟨cid, hcid, Option.map_eq_some'.mpr ⟨cl, hcl, he.symm⟩⟩
  have huniq_entry : ∀ e1 e2, e1 ∈ occupiedEntries locs spaces lid →
      e2 ∈ occupiedEntries locs spaces lid → e1.1 = e2.1 → e1 = e2 := by
    intro e1 e2 h1 h2 hk
    rcases (hmem_occ e1).mp h1 with ⟨s1, hm1, hp1, cid1, cl1, hc1, hl1, he1⟩
    rcases (hmem_occ e2).mp h2 with ⟨s2, hm2, hp2, cid2, cl2, hc2, hl2, he2⟩
    have hkey : s1.row = s2.row ∧ s1.column = s2.column := by
      rw [he1, he2] at hk
      simp at hk
      exact ⟨hk.1, hk.2⟩
    have hs12 : s1 = s2 := by
      by_contra hne
      exact (huniq.forall hsymm hm1 hm2 hne)
        ⟨hp1.trans hp2.symm, hkey.1, hkey.2⟩
    subst hs12
    rw [hc1] at hc2
    injection hc2 with h
    subst h
    rw [hl1] at hl2
    injection hl2 with h
    subst h
    rw [he1, he2]
  constructor
  · intro hf
    unfold dictFind at hf
    cases hfind : (occupiedEntries locs spaces lid).reverse.find?
        (fun e => e.1 = (r, c)) with
    | none => rw [hfind] at hf; simp at hf
    | some e =>
      rw [hfind] at hf
      simp only [Option.map, Option.some.injEq] at hf
      have hkey : e.1 = (r, c) := by
        have := List.find?_some hfind
        simpa using this
      have hmem : e ∈ occupiedEntries locs spaces lid :=
        List.mem_reverse.mp (List.mem_of_find?_eq_some hfind)
      rcases (hmem_occ e).mp hmem with ⟨s, hsmem, hpar, cid, cl, hcid, hcl, he⟩
      rw [he] at hkey
      simp at hkey
      refine ⟨s, hsmem, hpar, hkey.1, hkey.2, cid, cl, hcid, hcl, ?_⟩
      rw [he] at hf
      exact hf
  · rintro ⟨s, hsmem, hpar, hrow, hcol, cid, cl, hcid, hcl, hname⟩
    have hent : ((r, c), nm) ∈ occupiedEntries locs spaces lid := by
      refine (hmem_occ _).mpr ⟨s, hsmem, hpar, cid, cl, hcid, hcl, ?_⟩
      rw [hrow, hcol, hname]
    unfold dictFind
    have hex : ∃ e ∈ (occupiedEntries locs spaces lid).reverse,
        (fun e : (Nat × Nat) × String => decide (e.1 = (r, c))) e = true := by
      exact ⟨((r, c), nm), List.mem_reverse.mpr hent, by simp⟩
    have hsome := List.find?_isSome.mpr hex
    cases hfind : (occupiedEntries locs spaces lid).reverse.find?
        (fun e => e.1 = (r, c)) with
    | none => rw [hfind] at hsome; simp at hsome
    | some e =>
      have hkey : e.1 = (r, c) := by
        have := List.find?_some hfind
        simpa using this
      have hmem : e ∈ occupiedEntries locs spaces lid :=
        List.mem_reverse.mp (List.mem_of_find?_eq_some hfind)
      have : e = ((r, c), nm) := huniq_entry e ((r, c), nm) hmem hent (by simpa using hkey)
      rw [this]
      rfl

/-- C8: for an existing location, `get_location_grid` answers
`has_spaces: False` when the location's type has no spaces; otherwise,
with `rows` and `columns` set on the type, it returns a rows-by-columns
grid whose cell `(r, c)` (1-based) is occupied and carries the
occupant's name exactly when a space of that location at row `r`,
column `c` holds a child location, and is unoccupied with no name in
every other case.  The space table is assumed to satisfy the
`unique_together` constraint, and child references resolve. -/
theorem get_location_grid_spec (types : List LocationType)
    (locs : List Location) (spaces : List LocationSpace) (lid : Nat)
    (loc : Location) (t : LocationType)
    (hloc : findLoc locs lid = some loc)
    (ht : findType types loc.location_type = some t)
    (huniq : spaces.Pairwise (fun a b =>
      ¬(a.parent_location = b.parent_location ∧ a.row = b.row ∧
        a.column = b.column)))
    (hchild : ∀ s ∈ spaces, s.parent_location = lid →
      ∀ cid, s.child_location = some cid → (findLoc locs cid).isSome) :
    (t.has_spaces = false →
      get_location_grid types locs spaces lid = some GridResp.noSpaces) ∧
      (∀ R C, t.has_spaces = true → t.rows = some R → t.columns = some C →
        ∃ g, get_location_grid types locs spaces lid =
            some (GridResp.withGrid R C g) ∧
          g.length = R ∧
          ∀ r0 c0, r0 < R → c0 < C →
            ∃ rowL cell, g[r0]? = some rowL ∧ rowL.length = C ∧
              rowL[c0]? = some cell ∧
              cell.row = r0 + 1 ∧ cell.column = c0 + 1 ∧
              (cell.is_occupied = true ↔
                ∃ s ∈ spaces, s.parent_location = lid ∧ s.row = r0 + 1 ∧
                  s.column = c0 + 1 ∧ s.child_location ≠ none) ∧
              (∀ nm, cell.occupant_name = some nm ↔
                ∃ s ∈ spaces, s.parent_location = lid ∧ s.row = r0 + 1 ∧
                  s.column = c0 + 1 ∧
                  ∃ cid cl, s.child_location = some cid ∧
                    findLoc locs cid = some cl ∧ cl.name = nm)) := by
  constructor
  · intro hns
    unfold get_location_grid
    rw [hloc]
    dsimp only
    rw [ht]
    dsimp only
    rw [hns]
    rfl
  · intro R C hsp hr hc
    refine ⟨(List.range R).map (fun r0 =>
      (List.range C).map (fun c0 =>
        { row := r0 + 1, column := c0 + 1,
          is_occupied :=
            (dictFind (occupiedEntries locs spaces lid)
              (r0 + 1, c0 + 1)).isSome,
          occupant_name :=
            dictFind (occupiedEntries locs spaces lid)
              (r0 + 1, c0 + 1) })), ?_, ?_, ?_⟩
    · unfold get_location_grid
      rw [hloc]
      dsimp only
      rw [ht]
      dsimp only
      rw [hsp, hr, hc]
      rfl
    · simp
    · intro r0 c0 hr0 hc0
      refine ⟨(List.range C).map (fun c0 =>
          { row := r0 + 1, column := c0 + 1,
            is_occupied :=
              (dictFind (occupiedEntries locs spaces lid)
                (r0 + 1, c0 + 1)).isSome,
            occupant_name :=
              dictFind (occupiedEntries locs spaces lid)
                (r0 + 1, c0 + 1) }),
        { row := r0 + 1, column := c0 + 1,
          is_occupied :=
            (dictFind (occupiedEntries locs spaces lid)
              (r0 + 1, c0 + 1)).isSome,
          occupant_name :=
            dictFind (occupiedEntries locs spaces lid)
              (r0 + 1, c0 + 1) }, ?_, ?_, ?_, rfl, rfl, ?_, ?_⟩
      · rw [List.getElem?_map, List.getElem?_range hr0]
        rfl
      · simp
      · rw [List.getElem?_map, List.getElem?_range hc0]
        rfl
      · simp only [Option.isSome_iff_exists]
        constructor
        · rintro ⟨nm, hnm⟩
          rcases (dictFind_occupiedEntries locs spaces lid huniq _ _ nm).mp hnm
            with ⟨s, hsmem, hpar, hrow, hcol, cid, cl, hcid, hcl, _⟩
          exact ⟨s, hsmem, hpar, hrow, hcol, by simp [hcid]⟩
        · rintro ⟨s, hsmem, hpar, hrow, hcol, hne⟩
          rcases Option.ne_none_iff_exists.mp hne with ⟨cid, hcid⟩
          have hcs := hchild s hsmem hpar cid hcid.symm
          rcases Option.isSome_iff_exists.mp hcs with ⟨cl, hcl⟩
          exact ⟨cl.name,
            (dictFind_occupiedEntries locs spaces lid huniq _ _ cl.name).mpr
              ⟨s, hsmem, hpar, hrow, hcol, cid, cl, hcid.symm, hcl, rfl⟩⟩
      · intro nm
        exact dictFind_occupiedEntries locs spaces lid huniq _ _ nm

/-- Witness for C8: a 1x2 grid on location 1 whose space (1, 2) holds
location 2 named "Box". -/
theorem get_location_grid_spec_witness :
    (findLoc [⟨1, "R1", 5, none⟩, ⟨2, "Box", 6, none⟩] 1 =
        some ⟨1, "R1", 5, none⟩) ∧
      ∃ g, get_location_grid
          [⟨5, "Rack", "", [], false, false, true, some 1, some 2⟩]
          [⟨1, "R1", 5, none⟩, ⟨2, "Box", 6, none⟩]
          [⟨1, 1, 2, some 2⟩] 1 = some (GridResp.withGrid 1 2 g) ∧
        g.length = 1 ∧
        ∀ r0 c0, r0 < 1 → c0 < 2 →
          ∃ rowL cell, g[r0]? = some rowL ∧ rowL.length = 2 ∧
            rowL[c0]? = some cell ∧
            cell.row = r0 + 1 ∧ cell.column = c0 + 1 ∧
            (cell.is_occupied = true ↔
              ∃ s ∈ [(⟨1, 1, 2, some 2⟩ : LocationSpace)],
                s.parent_location = 1 ∧ s.row = r0 + 1 ∧
                s.column = c0 + 1 ∧ s.child_location ≠ none) ∧
            (∀ nm, cell.occupant_name = some nm ↔
              ∃ s ∈ [(⟨1, 1, 2, some 2⟩ : LocationSpace)],
                s.parent_location = 1 ∧ s.row = r0 + 1 ∧
                s.column = c0 + 1 ∧
                ∃ cid cl, s.child_location = some cid ∧
                  findLoc [⟨1, "R1", 5, none⟩, ⟨2, "Box", 6, none⟩] cid =
                    some cl ∧ cl.name = nm) := by
  refine ⟨by decide, ?_⟩
  exact (get_location_grid_spec
    [⟨5, "Rack", "", [], false, false, true, some 1, some 2⟩]
    [⟨1, "R1", 5, none⟩, ⟨2, "Box", 6, none⟩]
    [⟨1, 1, 2, some 2⟩] 1 ⟨1, "R1", 5, none⟩
    ⟨5, "Rack", "", [], false, false, true, some 1, some 2⟩
    (by decide) (by decide) (by decide) (by decide)).2 1 2 rfl rfl rfl

-- ========================================================================
-- C1: LocationType.get_all_descendants
-- ========================================================================

/-- The `for child in self.allowed_children.all()` loop body of
`get_all_descendants`: each child is added to the descendants set and
explored recursively, sharing the mutable `visited` set, which is
threaded through from call to call.  The pair is
`(visited after the loop, descendants collected by the loop)`. -/
def descList (step : Nat → Finset Nat → Finset Nat × Finset Nat) :
    List Nat → Finset Nat → Finset Nat × Finset Nat
  | [], vis => (vis, ∅)
  | c :: cs, vis =>
    let r := step c vis
    let rest := descList step cs r.1
    (rest.1, insert c (r.2 ∪ rest.2))

/-- `LocationType.get_all_descendants(visited)`: returns `set()` when the
receiver was already visited, otherwise marks it visited and explores the
children.  The unbounded Python recursion carries explicit fuel; fuel `0`
(never reached when the initial fuel exceeds the number of types, as
proved below) returns the already-visited set unchanged. -/
def descAux (g : Nat → List Nat) : Nat → Nat → Finset Nat → Finset Nat × Finset Nat
  | 0, _, vis => (vis, ∅)
  | fuel + 1, x, vis =>
    if x ∈ vis then (vis, ∅)
    else descList (descAux g fuel) (g x) (insert x vis)

/-- `LocationType.get_all_descendants()` called with no visited argument,
on the type with id `x`, over the whole `LocationType` table. -/
def get_all_descendants (types : List LocationType) (x : Nat) : Finset Nat :=
  (descAux (allowedChildrenIds types) ((typeIds types).toFinset.card + 1) x ∅).2

/-- Paths in the child graph that avoid a set of vertices: the
specification-side notion matching a DFS that ignores `visited`
vertices. -/
inductive ReachAvoid (g : Nat → List Nat) (avoid : Finset Nat) : Nat → Nat → Prop
  | refl (x : Nat) (hx : x ∉ avoid) : ReachAvoid g avoid x x
  | tail {x y z : Nat} (h : ReachAvoid g avoid x y) (hz : z ∈ g y)
      (hza : z ∉ avoid) : ReachAvoid g avoid x z

theorem ReachAvoid.not_mem_avoid {g : Nat → List Nat} {avoid : Finset Nat}
    {x y : Nat} (h : ReachAvoid g avoid x y) : y ∉ avoid := by
  cases h with
  | refl hx => exact hx
  | tail _ _ hza => exact hza

theorem ReachAvoid.mono {g : Nat → List Nat} {a b : Finset Nat}
    (hab : a ⊆ b) {x y : Nat} (h : ReachAvoid g b x y) :
    ReachAvoid g a x y := by
  induction h with
  | refl hu => exact ReachAvoid.refl x (fun hc => hu (hab hc))
  | tail _ hz hza ih => exact ReachAvoid.tail ih hz (fun hc => hza (hab hc))

theorem ReachAvoid.head {g : Nat → List Nat} {avoid : Finset Nat}
    {x c y : Nat} (hx : x ∉ avoid) (hc : c ∈ g x)
    (h : ReachAvoid g avoid c y) : ReachAvoid g avoid x y := by
  induction h with
  | refl hu => exact ReachAvoid.tail (ReachAvoid.refl x hx) hc hu
  | tail _ hz hza ih => exact ReachAvoid.tail ih hz hza

theorem descList_vis_mono (step : Nat → Finset Nat → Finset Nat × Finset Nat)
    (hstep : ∀ c vis, vis ⊆ (step c vis).1) :
    ∀ (cs : List Nat) (vis : Finset Nat), vis ⊆ (descList step cs vis).1 := by
  intro cs
  induction cs with
  | nil => intro vis; exact Finset.Subset.refl vis
  | cons c cs ih =>
    intro vis
    exact (hstep c vis).trans (ih (step c vis).1)

theorem descAux_vis_mono (g : Nat → List Nat) :
    ∀ (fuel : Nat) (x : Nat) (vis : Finset Nat),
      vis ⊆ (descAux g fuel x vis).1 := by
  intro fuel
  induction fuel with
  | zero => intro x vis; exact Finset.Subset.refl vis
  | succ n ih =>
    intro x vis
    by_cases hx : x ∈ vis
    · simp [descAux, hx]
    · simp only [descAux, if_neg hx]
      exact (Finset.subset_insert x vis).trans
        (descList_vis_mono (descAux g n) (fun c v => ih c v) (g x) (insert x vis))

theorem descList_desc_eq (g : Nat → List Nat)
    (step : Nat → Finset Nat → Finset Nat × Finset Nat)
    (hmono : ∀ c vis, vis ⊆ (step c vis).1)
    (hdesc : ∀ c vis, (step c vis).2 =
      Finset.biUnion ((step c vis).1 \ vis) (fun u => (g u).toFinset)) :
    ∀ (cs : List Nat) (vis : Finset Nat),
      (descList step cs vis).2 = cs.toFinset ∪
        Finset.biUnion ((descList step cs vis).1 \ vis)
          (fun u => (g u).toFinset) := by
  intro cs
  induction cs with
  | nil =>
    intro vis
    simp [descList]
  | cons c cs ih =>
    intro vis
    simp only [descList]
    rw [hdesc c vis, ih (step c vis).1]
    have h1 : vis ⊆ (step c vis).1 := hmono c vis
    have h2 : (step c vis).1 ⊆ (descList step cs (step c vis).1).1 :=
      descList_vis_mono step hmono cs (step c vis).1
    have hsd : ((step c vis).1 \ vis) ∪
        ((descList step cs (step c vis).1).1 \ (step c vis).1) =
        (descList step cs (step c vis).1).1 \ vis := by
      ext u
      simp only [Finset.mem_union, Finset.mem_sdiff]
      constructor
      · rintro (⟨hu1, hu2⟩ | ⟨hu1, hu2⟩)
        · exact ⟨h2 hu1, hu2⟩
        · exact ⟨hu1, fun hc => hu2 (h1 hc)⟩
      · rintro ⟨hu1, hu2⟩
        by_cases hc : u ∈ (step c vis).1
        · exact Or.inl ⟨hc, hu2⟩
        · exact Or.inr ⟨hu1, hc⟩
    have hbu : ∀ A B : Finset Nat,
        (A ∪ B).biUnion (fun u => (g u).toFinset) =
          A.biUnion (fun u => (g u).toFinset) ∪
            B.biUnion (fun u => (g u).toFinset) := by
      intro A B
      ext w
      simp only [Finset.mem_biUnion, Finset.mem_union]
      constructor
      · rintro ⟨a, ha | ha, hw⟩
        · exact Or.inl ⟨a, ha, hw⟩
        · exact Or.inr ⟨a, ha, hw⟩
      · rintro (⟨a, ha, hw⟩ | ⟨a, ha, hw⟩)
        · exact ⟨a, Or.inl ha, hw⟩
        · exact ⟨a, Or.inr ha, hw⟩
    rw [← hsd, hbu]
    ext u
    simp only [Finset.mem_insert, Finset.mem_union, List.mem_toFinset,
      List.mem_cons]
    tauto

theorem descAux_desc_eq (g : Nat → List Nat) :
    ∀ (fuel : Nat) (x : Nat) (vis : Finset Nat),
      (descAux g fuel x vis).2 =
        Finset.biUnion ((descAux g fuel x vis).1 \ vis)
          (fun u => (g u).toFinset) := by
  intro fuel
  induction fuel with
  | zero =>
    intro x vis
    simp [descAux]
  | succ n ih =>
    intro x vis
    by_cases hx : x ∈ vis
    · simp [descAux, hx]
    · simp only [descAux, if_neg hx]
      rw [descList_desc_eq g (descAux g n) (fun c v => descAux_vis_mono g n c v)
        (fun c v => ih c v) (g x) (insert x vis)]
      have hxin : x ∈ (descList (descAux g n) (g x) (insert x vis)).1 :=
        descList_vis_mono (descAux g n) (fun c v => descAux_vis_mono g n c v)
          (g x) (insert x vis) (Finset.mem_insert_self x vis)
      have hsd : (descList (descAux g n) (g x) (insert x vis)).1 \ vis =
          insert x ((descList (descAux g n) (g x) (insert x vis)).1 \
            insert x vis) := by
        ext u
        simp only [Finset.mem_sdiff, Finset.mem_insert]
        constructor
        · rintro ⟨hu1, hu2⟩
          by_cases hux : u = x
          · exact Or.inl hux
          · exact Or.inr ⟨hu1, by simp [hux, hu2]⟩
        · rintro (rfl | ⟨hu1, hu2⟩)
          · exact ⟨hxin, hx⟩
          · refine ⟨hu1, fun hc => hu2 ?_⟩
            simp [hc]
      rw [hsd, Finset.biUnion_insert]

theorem descList_sound (g : Nat → List Nat)
    (step : Nat → Finset Nat → Finset Nat × Finset Nat)
    (hmono : ∀ c vis, vis ⊆ (step c vis).1) (cs : List Nat) :
    ∀ vis : Finset Nat,
      (∀ c ∈ cs, ∀ vis' u, u ∈ (step c vis').1 →
        u ∈ vis' ∨ ReachAvoid g vis' c u) →
      ∀ u ∈ (descList step cs vis).1,
        u ∈ vis ∨ ∃ c ∈ cs, ReachAvoid g vis c u := by
  induction cs with
  | nil =>
    intro vis _ u hu
    exact Or.inl hu
  | cons c cs ih =>
    intro vis hstep u hu
    simp only [descList] at hu
    rcases ih (step c vis).1
        (fun c' hc' vis' u' hu' => hstep c' (List.mem_cons_of_mem c hc') vis' u' hu')
        u hu with h | ⟨c', hc', hr⟩
    · rcases hstep c (List.mem_cons_self c cs) vis u h with h' | h'
      · exact Or.inl h'
      · exact Or.inr ⟨c, List.mem_cons_self c cs, h'⟩
    · exact Or.inr ⟨c', List.mem_cons_of_mem c hc',
        hr.mono (hmono c vis)⟩

theorem descAux_sound (g : Nat → List Nat) :
    ∀ (fuel : Nat) (x : Nat) (vis : Finset Nat),
      ∀ u ∈ (descAux g fuel x vis).1, u ∈ vis ∨ ReachAvoid g vis x u := by
  intro fuel
  induction fuel with
  | zero =>
    intro x vis u hu
    exact Or.inl hu
  | succ n ih =>
    intro x vis u hu
    by_cases hx : x ∈ vis
    · simp only [descAux, if_pos hx] at hu
      exact Or.inl hu
    · simp only [descAux, if_neg hx] at hu
      rcases descList_sound g (descAux g n)
          (fun c v => descAux_vis_mono g n c v) (g x) (insert x vis)
          (fun c _ vis' u' hu' => ih c vis' u' hu') u hu with h | ⟨c, hc, hr⟩
      · rcases Finset.mem_insert.mp h with rfl | h'
        · exact Or.inr (ReachAvoid.refl u hx)
        · exact Or.inl h'
      · exact Or.inr (ReachAvoid.head hx hc
          (hr.mono (Finset.subset_insert x vis)))

theorem descList_closed (g : Nat → List Nat)
    (step : Nat → Finset Nat → Finset Nat × Finset Nat)
    (hmono : ∀ c vis, vis ⊆ (step c vis).1) (cs : List Nat) :
    ∀ vis : Finset Nat,
      (∀ c ∈ cs, ∀ vis', vis ⊆ vis' →
        (∀ u ∈ (step c vis').1 \ vis', ∀ d ∈ g u, d ∈ (step c vis').1) ∧
          c ∈ (step c vis').1) →
      (∀ u ∈ (descList step cs vis).1 \ vis, ∀ d ∈ g u,
          d ∈ (descList step cs vis).1) ∧
        ∀ c ∈ cs, c ∈ (descList step cs vis).1 := by
  induction cs with
  | nil =>
    intro vis _
    refine ⟨?_, by simp⟩
    intro u hu
    simp only [descList, Finset.sdiff_self] at hu
    exact absurd hu (Finset.not_mem_empty u)
  | cons c cs ih =>
    intro vis hstep
    have hrest := ih (step c vis).1 (fun c' hc' vis' hsub =>
      hstep c' (List.mem_cons_of_mem c hc') vis' ((hmono c vis).trans hsub))
    have hc0 := hstep c (List.mem_cons_self c cs) vis (Finset.Subset.refl vis)
    have hmono2 : (step c vis).1 ⊆ (descList step cs (step c vis).1).1 :=
      descList_vis_mono step hmono cs (step c vis).1
    constructor
    · intro u hu d hd
      rcases Finset.mem_sdiff.mp hu with ⟨hu1, hu2⟩
      by_cases hur : u ∈ (step c vis).1
      · exact hmono2 (hc0.1 u (Finset.mem_sdiff.mpr ⟨hur, hu2⟩) d hd)
      · exact hrest.1 u (Finset.mem_sdiff.mpr ⟨hu1, hur⟩) d hd
    · intro c' hc'
      rcases List.mem_cons.mp hc' with rfl | hc''
      · exact hmono2 hc0.2
      · exact hrest.2 c' hc''

theorem descAux_closed (g : Nat → List Nat) (univ : Finset Nat)
    (hclosed : ∀ u c, c ∈ g u → c ∈ univ) :
    ∀ (fuel : Nat) (x : Nat) (vis : Finset Nat), x ∈ univ →
      (univ \ vis).card + 1 ≤ fuel →
      (∀ u ∈ (descAux g fuel x vis).1 \ vis, ∀ d ∈ g u,
          d ∈ (descAux g fuel x vis).1) ∧
        x ∈ (descAux g fuel x vis).1 := by
  intro fuel
  induction fuel with
  | zero =>
    intro x vis _ hf
    exact absurd hf (by omega)
  | succ n ih =>
    intro x vis hx hf
    by_cases hxv : x ∈ vis
    · refine ⟨?_, by simp [descAux, hxv]⟩
      intro u hu
      simp only [descAux, if_pos hxv, Finset.sdiff_self] at hu
      exact absurd hu (Finset.not_mem_empty u)
    · have hxs : x ∈ univ \ vis := Finset.mem_sdiff.mpr ⟨hx, hxv⟩
      have hcard : (univ \ insert x vis).card + 1 ≤ n := by
        have h1 : univ \ insert x vis = (univ \ vis).erase x :=
          Finset.sdiff_insert univ vis x
        have h2 : ((univ \ vis).erase x).card = (univ \ vis).card - 1 :=
          Finset.card_erase_of_mem hxs
        have h3 : 1 ≤ (univ \ vis).card := Finset.card_pos.mpr ⟨x, hxs⟩
        rw [h1, h2]
        omega
      have hstep : ∀ c ∈ g x, ∀ vis', insert x vis ⊆ vis' →
          (∀ u ∈ (descAux g n c vis').1 \ vis', ∀ d ∈ g u,
              d ∈ (descAux g n c vis').1) ∧
            c ∈ (descAux g n c vis').1 := by
        intro c hc vis' hsub
        refine ih c vis' (hclosed x c hc) ?_
        have hsd : univ \ vis' ⊆ univ \ insert x vis :=
          Finset.sdiff_subset_sdiff (Finset.Subset.refl univ) hsub
        have := Finset.card_le_card hsd
        omega
      have hlist := descList_closed g (descAux g n)
        (fun c v => descAux_vis_mono g n c v) (g x) (insert x vis) hstep
      have hxin : x ∈ (descList (descAux g n) (g x) (insert x vis)).1 :=
        descList_vis_mono (descAux g n) (fun c v => descAux_vis_mono g n c v)
          (g x) (insert x vis) (Finset.mem_insert_self x vis)
      constructor
      · intro u hu d hd
        simp only [descAux, if_neg hxv] at hu ⊢
        rcases Finset.mem_sdiff.mp hu with ⟨hu1, hu2⟩
        by_cases hux : u = x
        · subst hux
          exact hlist.2 d hd
        · refine hlist.1 u (Finset.mem_sdiff.mpr ⟨hu1, ?_⟩) d hd
          simp [Finset.mem_insert, hux, hu2]
      · simp only [descAux, if_neg hxv]
        exact hxin

theorem descAux_complete (g : Nat → List Nat) (univ : Finset Nat)
    (hclosed : ∀ u c, c ∈ g u → c ∈ univ)
    (fuel : Nat) (x : Nat) (vis : Finset Nat) (hx : x ∈ univ)
    (hf : (univ \ vis).card + 1 ≤ fuel) :
    ∀ y, ReachAvoid g vis x y → y ∈ (descAux g fuel x vis).1 := by
  intro y hy
  induction hy with
  | refl _ => exact (descAux_closed g univ hclosed fuel x vis hx hf).2
  | tail h hz _ ih =>
    exact (descAux_closed g univ hclosed fuel x vis hx hf).1 _
      (Finset.mem_sdiff.mpr ⟨ih, h.not_mem_avoid⟩) _ hz

theorem reachAvoid_empty_iff (g : Nat → List Nat) (x y : Nat) :
    ReachAvoid g ∅ x y ↔
      Relation.ReflTransGen (fun u v => v ∈ g u) x y := by
  constructor
  · intro h
    induction h with
    | refl _ => exact Relation.ReflTransGen.refl
    | tail _ hz _ ih => exact Relation.ReflTransGen.tail ih hz
  · intro h
    induction h with
    | refl => exact ReachAvoid.refl x (Finset.not_mem_empty x)
    | tail _ hz ih =>
      exact ReachAvoid.tail ih hz (Finset.not_mem_empty _)

/-- C1: over any finite `LocationType` table — cyclic allowed-parent
graphs included — `get_all_descendants` called with no visited argument
on a type `x` of the table returns exactly the set of types reachable
from `x` along one or more `allowed_children` edges.  Termination of the
unbounded Python recursion at this input is witnessed by the fixed fuel
`card + 1` of `get_all_descendants` being sufficient. -/
theorem get_all_descendants_spec (types : List LocationType) (x : Nat)
    (hx : x ∈ (typeIds types).toFinset) :
    ∀ y, y ∈ get_all_descendants types x ↔
      Relation.TransGen (fun u v => v ∈ allowedChildrenIds types u) x y := by
  intro y
  have hclosed : ∀ u c, c ∈ allowedChildrenIds types u →
      c ∈ (typeIds types).toFinset := by
    intro u c hc
    unfold allowedChildrenIds at hc
    rcases List.mem_map.mp hc with ⟨t, htf, rfl⟩
    exact List.mem_toFinset.mpr
      (List.mem_map.mpr ⟨t, (List.mem_filter.mp htf).1, rfl⟩)
  have hvis : ∀ u,
      u ∈ (descAux (allowedChildrenIds types)
          ((typeIds types).toFinset.card + 1) x ∅).1 ↔
        ReachAvoid (allowedChildrenIds types) ∅ x u := by
    intro u
    constructor
    · intro hu
      rcases descAux_sound (allowedChildrenIds types) _ x ∅ u hu with h | h
      · exact absurd h (Finset.not_mem_empty u)
      · exact h
    · intro hu
      exact descAux_complete (allowedChildrenIds types)
        ((typeIds types).toFinset) hclosed _ x ∅ hx (by simp) u hu
  unfold get_all_descendants
  rw [descAux_desc_eq]
  constructor
  · intro hy
    rcases Finset.mem_biUnion.mp hy with ⟨u, hu, hyu⟩
    have hu1 := (Finset.mem_sdiff.mp hu).1
    have hxu : Relation.ReflTransGen
        (fun a b => b ∈ allowedChildrenIds types a) x u :=
      (reachAvoid_empty_iff (allowedChildrenIds types) x u).mp ((hvis u).mp hu1)
    exact Relation.TransGen.tail'_iff.mpr
      ⟨u, hxu, List.mem_toFinset.mp hyu⟩
  · intro hy
    rcases Relation.TransGen.tail'_iff.mp hy with ⟨u, hxu, huy⟩
    refine Finset.mem_biUnion.mpr ⟨u, ?_, List.mem_toFinset.mpr huy⟩
    rw [Finset.mem_sdiff]
    refine ⟨(hvis u).mpr
      ((reachAvoid_empty_iff (allowedChildrenIds types) x u).mpr hxu), ?_⟩
    exact Finset.not_mem_empty u

/-- Witness for C1 on a cyclic graph: types 0 and 1 allow each other as
parents (a two-cycle) and type 2 is a child of 1; the descendants of 0
are characterised by reachability, and 2 is reachable. -/
theorem get_all_descendants_spec_witness :
    (0 ∈ (typeIds
        [⟨0, "A", "", [1], false, false, false, none, none⟩,
         ⟨1, "B", "", [0], false, false, false, none, none⟩,
         ⟨2, "C", "", [1], false, false, false, none, none⟩]).toFinset) ∧
      (2 ∈ get_all_descendants
          [⟨0, "A", "", [1], false, false, false, none, none⟩,
           ⟨1, "B", "", [0], false, false, false, none, none⟩,
           ⟨2, "C", "", [1], false, false, false, none, none⟩] 0 ↔
        Relation.TransGen (fun u v => v ∈ allowedChildrenIds
          [⟨0, "A", "", [1], false, false, false, none, none⟩,
           ⟨1, "B", "", [0], false, false, false, none, none⟩,
           ⟨2, "C", "", [1], false, false, false, none, none⟩] u) 0 2) := by
  refine ⟨by decide, ?_⟩
  exact get_all_descendants_spec
    [⟨0, "A", "", [1], false, false, false, none, none⟩,
     ⟨1, "B", "", [0], false, false, false, none, none⟩,
     ⟨2, "C", "", [1], false, false, false, none, none⟩] 0 (by decide) 2

-- ========================================================================
-- C4: LocationTypesTabView._get_sorted_location_types
-- ========================================================================

instance : Inhabited LocationType :=
  ⟨{ id := 0, name := "" }⟩

/-- `type_map[i].name`: the display name used as sort key. -/
def nameOfId (types : List LocationType) (i : Nat) : String :=
  ((findType types i).map (fun t => t.name)).getD ""

/-- `sorted(ids, key=lambda id: type_map[id].name)`. -/
def sortIdsByName (types : List LocationType) (l : List Nat) : List Nat :=
  List.insertionSort (fun a b => nameOfId types a ≤ nameOfId types b) l

/-- `sorted(types, key=lambda t: t.name)`. -/
def sortTypesByName (l : List LocationType) : List LocationType :=
  List.insertionSort (fun a b => a.name ≤ b.name) l

/-- The inner `for child in sorted(...)` loop of the topological sort:
decrements `in_degree[child]` and enqueues the child when its degree
reaches zero.  Degrees live in `Int` exactly as Python integers do. -/
def processChildren : List Nat → (Nat → Int) → List Nat → ((Nat → Int) × List Nat)
  | [], deg, enq => (deg, enq)
  | c :: cs, deg, enq =>
    processChildren cs (fun i => if i = c then deg c - 1 else deg i)
      (if deg c - 1 = 0 then enq ++ [c] else enq)

/-- The `while queue:` loop of `_get_sorted_location_types`, with fuel:
pops the head of the queue, appends it to the sorted output and
processes its children.  The initial fuel `types.length + 1` is shown
below to be sufficient. -/
def kahnLoop (types : List LocationType) :
    Nat → List Nat → (Nat → Int) → List Nat → List Nat
  | 0, _, _, sorted => sorted
  | _ + 1, [], _, sorted => sorted
  | fuel + 1, q :: qs, deg, sorted =>
    kahnLoop types fuel
      (qs ++ (processChildren
        (sortIdsByName types (allowedChildrenIds types q)) deg []).2)
      (processChildren
        (sortIdsByName types (allowedChildrenIds types q)) deg []).1
      (sorted ++ [q])

/-- `in_degree = {t.id: t.allowed_parents.count() for t in all_types}`. -/
def degInit (types : List LocationType) : Nat → Int :=
  fun i => ((parentsOf types i).length : Int)

/-- The initial queue: ids of in-degree zero, sorted by name. -/
def kahnQueue0 (types : List LocationType) : List Nat :=
  sortIdsByName types ((typeIds types).filter (fun i => degInit types i = 0))

/-- The id sequence emitted by the topological pass. -/
def kahnSortedIds (types : List LocationType) : List Nat :=
  kahnLoop types (types.length + 1) (kahnQueue0 types) (degInit types) []

/-- `LocationTypesTabView._get_sorted_location_types`: the emitted types,
and — when the pass did not emit everything (a cycle) — the remaining
types appended in name order. -/
def getSortedLocationTypes (types : List LocationType) : List LocationType :=
  if types.isEmpty then []
  else if ((kahnSortedIds types).filterMap (findType types)).length ≠
      types.length then
    ((kahnSortedIds types).filterMap (findType types)) ++
      sortTypesByName (types.filter (fun t =>
        t.id ∉ ((kahnSortedIds types).filterMap (findType types)).map
          (fun u => u.id)))
  else
    ((kahnSortedIds types).filterMap (findType types))

theorem processChildren_deg (cs : List Nat) (hnd : cs.Nodup) :
    ∀ (deg : Nat → Int) (enq : List Nat) (i : Nat),
      (processChildren cs deg enq).1 i =
        if i ∈ cs then deg i - 1 else deg i := by
  induction cs with
  | nil =>
    intro deg enq i
    simp [processChildren]
  | cons c cs ih =>
    intro deg enq i
    rcases List.nodup_cons.mp hnd with ⟨hc, hnd'⟩
    simp only [processChildren]
    rw [ih hnd']
    by_cases hic : i ∈ cs
    · have hine : i ≠ c := fun h => hc (h ▸ hic)
      simp [hic, hine, List.mem_cons]
    · by_cases hie : i = c
      · subst hie
        simp [hic, hc]
      · simp [hic, hie, List.mem_cons]

theorem processChildren_enq (cs : List Nat) (hnd : cs.Nodup) :
    ∀ (deg : Nat → Int) (enq : List Nat),
      (processChildren cs deg enq).2 =
        enq ++ cs.filter (fun c => deg c - 1 = 0) := by
  induction cs with
  | nil =>
    intro deg enq
    simp [processChildren]
  | cons c cs ih =>
    intro deg enq
    rcases List.nodup_cons.mp hnd with ⟨hc, hnd'⟩
    simp only [processChildren]
    rw [ih hnd']
    have hagree : cs.filter
        (fun c' => (fun i => if i = c then deg c - 1 else deg i) c' - 1 = 0) =
        cs.filter (fun c' => deg c' - 1 = 0) := by
      apply List.filter_congr
      intro c' hc'
      have : c' ≠ c := fun h => hc (h ▸ hc')
      simp [this]
    rw [hagree]
    by_cases hz : deg c - 1 = 0
    · simp [hz, List.filter_cons]
    · simp [hz, List.filter_cons]

theorem findType_eq_some (types : List LocationType) (i : Nat)
    (t : LocationType) (h : findType types i = some t) :
    t ∈ types ∧ t.id = i := by
  refine ⟨List.mem_of_find?_eq_some h, ?_⟩
  have := List.find?_some h
  simpa using this

theorem findType_isSome (types : List LocationType) (i : Nat)
    (h : i ∈ typeIds types) : (findType types i).isSome := by
  rcases List.mem_map.mp h with ⟨t, ht, rfl⟩
  exact List.find?_isSome.mpr ⟨t, ht, by simp⟩

theorem findType_self (types : List LocationType)
    (hids : (typeIds types).Nodup) (t : LocationType) (ht : t ∈ types) :
    findType types t.id = some t := by
  cases hf : findType types t.id with
  | none =>
    have := findType_isSome types t.id
      (List.mem_map.mpr ⟨t, ht, rfl⟩)
    rw [hf] at this
    simp at this
  | some u =>
    rcases findType_eq_some types t.id u hf with ⟨hu, hid⟩
    have : u = t := List.inj_on_of_nodup_map hids hu ht hid
    rw [this]

theorem parentsOf_eq (types : List LocationType) (i : Nat)
    (t : LocationType) (h : findType types i = some t) :
    parentsOf types i = t.allowed_parents := by
  unfold parentsOf
  rw [h]
  rfl

theorem parentsOf_nodup (types : List LocationType)
    (hpnd : ∀ t ∈ types, t.allowed_parents.Nodup) (i : Nat) :
    (parentsOf types i).Nodup := by
  unfold parentsOf
  cases hf : findType types i with
  | none => simp
  | some t =>
    exact hpnd t (findType_eq_some types i t hf).1

theorem parentsOf_subset_ids (types : List LocationType)
    (hclosed : ∀ t ∈ types, ∀ p ∈ t.allowed_parents, p ∈ typeIds types)
    (i : Nat) : ∀ p ∈ parentsOf types i, p ∈ typeIds types := by
  intro p hp
  unfold parentsOf at hp
  cases hf : findType types i with
  | none => rw [hf] at hp; simp at hp
  | some t =>
    rw [hf] at hp
    exact hclosed t (findType_eq_some types i t hf).1 p hp

theorem allowedChildrenIds_subset (types : List LocationType) (q : Nat) :
    ∀ c ∈ allowedChildrenIds types q, c ∈ typeIds types := by
  intro c hc
  rcases List.mem_map.mp hc with ⟨t, htf, rfl⟩
  exact List.mem_map.mpr ⟨t, (List.mem_filter.mp htf).1, rfl⟩

theorem allowedChildrenIds_nodup (types : List LocationType)
    (hids : (typeIds types).Nodup) (q : Nat) :
    (allowedChildrenIds types q).Nodup := by
  unfold allowedChildrenIds
  have hsub : List.Sublist
      ((types.filter (fun t => q ∈ t.allowed_parents)).map (fun t => t.id))
      (typeIds types) :=
    List.Sublist.map _ (List.filter_sublist types)
  exact hids.sublist hsub

theorem mem_allowedChildrenIds (types : List LocationType)
    (hids : (typeIds types).Nodup) (q c : Nat) :
    c ∈ allowedChildrenIds types q ↔
      c ∈ typeIds types ∧ q ∈ parentsOf types c := by
  constructor
  · intro hc
    rcases List.mem_map.mp hc with ⟨t, htf, rfl⟩
    rcases List.mem_filter.mp htf with ⟨htm, hq⟩
    refine ⟨List.mem_map.mpr ⟨t, htm, rfl⟩, ?_⟩
    rw [parentsOf_eq types t.id t (findType_self types hids t htm)]
    simpa using hq
  · rintro ⟨hc, hq⟩
    rcases List.mem_map.mp hc with ⟨t, htm, rfl⟩
    rw [parentsOf_eq types t.id t (findType_self types hids t htm)] at hq
    exact List.mem_map.mpr ⟨t, List.mem_filter.mpr ⟨htm, by simpa using hq⟩, rfl⟩

theorem sortIdsByName_perm (types : List LocationType) (l : List Nat) :
    List.Perm (sortIdsByName types l) l :=
  List.perm_insertionSort _ l

theorem sortTypesByName_perm (l : List LocationType) :
    List.Perm (sortTypesByName l) l :=
  List.perm_insertionSort _ l

/-- The loop invariant of the Kahn pass: the emitted list and the queue
are duplicate-free ids of the table; the stored degree of every id
counts its not-yet-emitted allowed parents; queued ids have all parents
emitted; every emitted id has all parents emitted strictly before it;
and every id whose degree is zero has been emitted or queued. -/
def KahnInv (types : List LocationType) (emitted queue : List Nat)
    (deg : Nat → Int) : Prop :=
  (emitted ++ queue).Nodup ∧
  (∀ i ∈ emitted ++ queue, i ∈ typeIds types) ∧
  (∀ i ∈ typeIds types, deg i =
    (((parentsOf types i).filter (fun p => p ∉ emitted)).length : Int)) ∧
  (∀ i ∈ queue, ∀ p ∈ parentsOf types i, p ∈ emitted) ∧
  (∀ j, ∀ hj : j < emitted.length,
    ∀ p ∈ parentsOf types (emitted.get ⟨j, hj⟩), p ∈ emitted.take j) ∧
  (∀ i ∈ typeIds types, deg i = 0 → i ∈ emitted ++ queue)

theorem kahnStep_inv (types : List LocationType)
    (hids : (typeIds types).Nodup)
    (hclosed : ∀ t ∈ types, ∀ p ∈ t.allowed_parents, p ∈ typeIds types)
    (hpnd : ∀ t ∈ types, t.allowed_parents.Nodup)
    (emitted qs : List Nat) (deg : Nat → Int) (q : Nat)
    (hinv : KahnInv types emitted (q :: qs) deg) :
    KahnInv types (emitted ++ [q])
      (qs ++ (processChildren
        (sortIdsByName types (allowedChildrenIds types q)) deg []).2)
      (processChildren
        (sortIdsByName types (allowedChildrenIds types q)) deg []).1 := by
  obtain ⟨hnd, hmem, hdeg, hqpar, htopo, hzero⟩ := hinv
  have hperm := sortIdsByName_perm types (allowedChildrenIds types q)
  have hcs_nodup : (sortIdsByName types (allowedChildrenIds types q)).Nodup :=
    hperm.nodup_iff.mpr (allowedChildrenIds_nodup types hids q)
  have hcs_iff : ∀ c, c ∈ sortIdsByName types (allowedChildrenIds types q) ↔
      c ∈ typeIds types ∧ q ∈ parentsOf types c := by
    intro c
    rw [hperm.mem_iff]
    exact mem_allowedChildrenIds types hids q c
  have hdeg' := processChildren_deg
    (sortIdsByName types (allowedChildrenIds types q)) hcs_nodup deg []
  have henq := processChildren_enq
    (sortIdsByName types (allowedChildrenIds types q)) hcs_nodup deg []
  rw [List.nil_append] at henq
  have hqmem : q ∈ typeIds types := hmem q (by simp)
  have hdisj := List.disjoint_of_nodup_append hnd
  have hqE : q ∉ emitted := fun h => hdisj h (by simp)
  have hqqs : q ∉ qs := by
    have := (List.nodup_append.mp hnd).2.1
    exact (List.nodup_cons.mp this).1
  have hqparents : ∀ p ∈ parentsOf types q, p ∈ emitted :=
    hqpar q (by simp)
  have hEpar : ∀ e ∈ emitted, ∀ p ∈ parentsOf types e, p ∈ emitted := by
    intro e he p hp
    rcases List.mem_iff_get.mp he with ⟨⟨j, hj⟩, rfl⟩
    exact List.take_subset j emitted (htopo j hj p hp)
  have hP_nodup : ∀ i, (parentsOf types i).Nodup := parentsOf_nodup types hpnd
  have hnew_props : ∀ c ∈ (processChildren
      (sortIdsByName types (allowedChildrenIds types q)) deg []).2,
      c ∈ typeIds types ∧ q ∈ parentsOf types c ∧ deg c = 1 := by
    intro c hc
    rw [henq] at hc
    rcases List.mem_filter.mp hc with ⟨hcs, hpred⟩
    rcases (hcs_iff c).mp hcs with ⟨h1, h2⟩
    have : deg c - 1 = 0 := by simpa using hpred
    exact ⟨h1, h2, by omega⟩
  have hnew_fresh : ∀ c ∈ (processChildren
      (sortIdsByName types (allowedChildrenIds types q)) deg []).2,
      c ∉ emitted ∧ c ≠ q ∧ c ∉ qs := by
    intro c hc
    rcases hnew_props c hc with ⟨_, hqp, _⟩
    refine ⟨?_, ?_, ?_⟩
    · intro hce
      exact hqE (hEpar c hce q hqp)
    · intro hceq
      rw [hceq] at hqp
      exact hqE (hqparents q hqp)
    · intro hcqs
      exact hqE (hqpar c (by simp [hcqs]) q hqp)
  have hnew_nodup : (processChildren
      (sortIdsByName types (allowedChildrenIds types q)) deg []).2.Nodup := by
    rw [henq]
    exact hcs_nodup.filter _
  refine ⟨?_, ?_, ?_, ?_, ?_, ?_⟩
  · -- Nodup
    have h0 : emitted ++ q :: qs = (emitted ++ [q]) ++ qs := by simp
    rw [h0] at hnd
    rw [← List.append_assoc]
    rw [List.nodup_append]
    refine ⟨hnd, hnew_nodup, ?_⟩
    intro a ha hb
    rcases hnew_fresh a hb with ⟨h1, h2, h3⟩
    rcases List.mem_append.mp ha with h | h
    · rcases List.mem_append.mp h with h' | h'
      · exact h1 h'
      · exact h2 (by simpa using h')
    · exact h3 h
  · -- membership in ids
    intro i hi
    rcases List.mem_append.mp hi with h | h
    · rcases List.mem_append.mp h with h' | h'
      · exact hmem i (by simp [h'])
      · exact hmem i (by simp [List.mem_singleton.mp h'])
    · rcases List.mem_append.mp h with h' | h'
      · exact hmem i (by simp [h'])
      · exact (hnew_props i h').1
  · -- degree formula
    intro i hi
    rw [hdeg' i]
    by_cases hic : i ∈ sortIdsByName types (allowedChildrenIds types q)
    · rcases (hcs_iff i).mp hic with ⟨_, hqPi⟩
      rw [if_pos hic, hdeg i hi]
      have hfilter_eq : (parentsOf types i).filter
          (fun p => p ∉ emitted ++ [q]) =
          ((parentsOf types i).filter (fun p => p ∉ emitted)).filter
            (fun p => p ≠ q) := by
        rw [List.filter_filter]
        apply List.filter_congr
        intro p _
        by_cases he : p ∈ emitted <;> by_cases hq2 : p = q <;>
          simp [he, hq2]
      have hqL : q ∈ (parentsOf types i).filter (fun p => p ∉ emitted) :=
        List.mem_filter.mpr ⟨hqPi, by simpa using hqE⟩
      have hLnd : ((parentsOf types i).filter (fun p => p ∉ emitted)).Nodup :=
        (hP_nodup i).filter _
      have herase : ((parentsOf types i).filter (fun p => p ∉ emitted)).filter
          (fun p => p ≠ q) =
          ((parentsOf types i).filter (fun p => p ∉ emitted)).erase q := by
        rw [hLnd.erase_eq_filter]
        apply List.filter_congr
        intro p _
        by_cases hq2 : p = q <;> simp [hq2]
      have hlen : (((parentsOf types i).filter (fun p => p ∉ emitted)).erase
          q).length =
          ((parentsOf types i).filter (fun p => p ∉ emitted)).length - 1 :=
        List.length_erase_of_mem hqL
      have hpos : 0 < ((parentsOf types i).filter
          (fun p => p ∉ emitted)).length :=
        List.length_pos.mpr (List.ne_nil_of_mem hqL)
      rw [hfilter_eq, herase, hlen]
      push_cast [Nat.cast_sub (by omega : 1 ≤ ((parentsOf types i).filter
        (fun p => p ∉ emitted)).length)]
      ring
    · have hqnPi : q ∉ parentsOf types i := by
        intro hq
        exact hic ((hcs_iff i).mpr ⟨hi, hq⟩)
      rw [if_neg hic, hdeg i hi]
      have hsame : (parentsOf types i).filter (fun p => p ∉ emitted ++ [q]) =
          (parentsOf types i).filter (fun p => p ∉ emitted) := by
        apply List.filter_congr
        intro p hp
        have hpq : p ≠ q := fun h => hqnPi (h ▸ hp)
        by_cases he : p ∈ emitted <;> simp [he, hpq]
      rw [hsame]
  · -- queue parents emitted
    intro i hi p hp
    rcases List.mem_append.mp hi with h | h
    · exact List.mem_append_left _ (hqpar i (by simp [h]) p hp)
    · rcases hnew_props i h with ⟨hiid, _, hdi⟩
      have hdeg'i : (processChildren
          (sortIdsByName types (allowedChildrenIds types q)) deg []).1 i = 0 := by
        rw [hdeg' i, if_pos]
        · omega
        · rw [henq] at h
          exact (List.mem_filter.mp h).1
      -- the new degree formula shows the filtered parent list is empty
      have hform : (processChildren
          (sortIdsByName types (allowedChildrenIds types q)) deg []).1 i =
          (((parentsOf types i).filter
            (fun p => p ∉ emitted ++ [q])).length : Int) := by
        rw [hdeg' i]
        rw [henq] at h
        have hic := (List.mem_filter.mp h).1
        rcases (hcs_iff i).mp hic with ⟨_, hqPi⟩
        rw [if_pos hic, hdeg i hiid]
        have hfilter_eq : (parentsOf types i).filter
            (fun p => p ∉ emitted ++ [q]) =
            ((parentsOf types i).filter (fun p => p ∉ emitted)).filter
              (fun p => p ≠ q) := by
          rw [List.filter_filter]
          apply List.filter_congr
          intro p _
          by_cases he : p ∈ emitted <;> by_cases hq2 : p = q <;>
            simp [he, hq2]
        have hqL : q ∈ (parentsOf types i).filter (fun p => p ∉ emitted) :=
          List.mem_filter.mpr ⟨hqPi, by simpa using hqE⟩
        have hLnd : ((parentsOf types i).filter (fun p => p ∉ emitted)).Nodup :=
          (hP_nodup i).filter _
        have herase : ((parentsOf types i).filter
            (fun p => p ∉ emitted)).filter (fun p => p ≠ q) =
            ((parentsOf types i).filter (fun p => p ∉ emitted)).erase q := by
          rw [hLnd.erase_eq_filter]
          apply List.filter_congr
          intro p _
          by_cases hq2 : p = q <;> simp [hq2]
        have hlen : (((parentsOf types i).filter
            (fun p => p ∉ emitted)).erase q).length =
            ((parentsOf types i).filter (fun p => p ∉ emitted)).length - 1 :=
          List.length_erase_of_mem hqL
        have hpos : 0 < ((parentsOf types i).filter
            (fun p => p ∉ emitted)).length :=
          List.length_pos.mpr (List.ne_nil_of_mem hqL)
        rw [hfilter_eq, herase, hlen]
        push_cast [Nat.cast_sub (by omega : 1 ≤ ((parentsOf types i).filter
          (fun p => p ∉ emitted)).length)]
        ring
      rw [hdeg'i] at hform
      have hempty : (parentsOf types i).filter
          (fun p => p ∉ emitted ++ [q]) = [] := by
        have : ((parentsOf types i).filter
            (fun p => p ∉ emitted ++ [q])).length = 0 := by
          omega
        exact List.length_eq_zero.mp this
      have h2 := List.filter_eq_nil_iff.mp hempty p hp
      simp only [decide_eq_true_eq, not_not] at h2
      simpa using h2
  · -- topological order of emitted
    intro j hj p hp
    rw [List.length_append, List.length_singleton] at hj
    by_cases hjE : j < emitted.length
    · have hget : (emitted ++ [q]).get ⟨j, by simpa using hj⟩ =
          emitted.get ⟨j, hjE⟩ := List.getElem_append_left hjE
      rw [hget] at hp
      have htake : (emitted ++ [q]).take j = emitted.take j :=
        List.take_append_of_le_length (by omega)
      rw [htake]
      exact htopo j hjE p hp
    · have hje : j = emitted.length := by omega
      subst hje
      have hget : (emitted ++ [q]).get ⟨emitted.length, by simp⟩ = q := by
        simp
      rw [hget] at hp
      have htake : (emitted ++ [q]).take emitted.length = emitted := by
        rw [List.take_append_of_le_length (Nat.le_refl _), List.take_length]
      rw [htake]
      exact hqparents p hp
  · -- zero degree implies present
    intro i hi hz
    rw [hdeg' i] at hz
    by_cases hic : i ∈ sortIdsByName types (allowedChildrenIds types q)
    · rw [if_pos hic] at hz
      have : i ∈ (processChildren
          (sortIdsByName types (allowedChildrenIds types q)) deg []).2 := by
        rw [henq]
        exact List.mem_filter.mpr ⟨hic, by simpa using hz⟩
      simp only [List.mem_append]
      tauto
    · rw [if_neg hic] at hz
      have := hzero i hi hz
      rcases List.mem_append.mp this with h | h
      · simp [List.mem_append, h]
      · rcases List.mem_cons.mp h with rfl | h'
        · simp
        · simp [List.mem_append, h']

theorem kahnLoop_inv (types : List LocationType)
    (hids : (typeIds types).Nodup)
    (hclosed : ∀ t ∈ types, ∀ p ∈ t.allowed_parents, p ∈ typeIds types)
    (hpnd : ∀ t ∈ types, t.allowed_parents.Nodup) :
    ∀ (fuel : Nat) (queue emitted : List Nat) (deg : Nat → Int),
      KahnInv types emitted queue deg →
      types.length + 1 ≤ fuel + emitted.length →
      ∃ deg', KahnInv types (kahnLoop types fuel queue deg emitted) [] deg' := by
  intro fuel
  induction fuel with
  | zero =>
    intro queue emitted deg hinv hb
    exfalso
    have hnde : emitted.Nodup := (List.nodup_append.mp hinv.1).1
    have hsube : emitted ⊆ typeIds types := fun i hi =>
      hinv.2.1 i (List.mem_append_left _ hi)
    have hlen : emitted.length ≤ (typeIds types).length :=
      (List.subperm_of_subset hnde hsube).length_le
    have : (typeIds types).length = types.length := List.length_map types _
    omega
  | succ n ih =>
    intro queue emitted deg hinv hb
    cases queue with
    | nil =>
      refine ⟨deg, ?_⟩
      simpa only [kahnLoop] using hinv
    | cons q qs =>
      have hstep := kahnStep_inv types hids hclosed hpnd emitted qs deg q hinv
      have hb' : types.length + 1 ≤ n + (emitted ++ [q]).length := by
        rw [List.length_append, List.length_singleton]
        omega
      have hrec := ih
        (qs ++ (processChildren
          (sortIdsByName types (allowedChildrenIds types q)) deg []).2)
        (emitted ++ [q])
        (processChildren
          (sortIdsByName types (allowedChildrenIds types q)) deg []).1
        hstep hb'
      simpa only [kahnLoop] using hrec

/-- `type_map[i]`: the total lookup used once an id is known to be in the
table. -/
def lookupType (types : List LocationType) (i : Nat) : LocationType :=
  (findType types i).getD default

theorem filterMap_findType_eq_map (types : List LocationType) :
    ∀ (l : List Nat), (∀ i ∈ l, i ∈ typeIds types) →
      l.filterMap (findType types) = l.map (lookupType types) := by
  intro l
  induction l with
  | nil => intro _; rfl
  | cons i l ih =>
    intro h
    have hi : (findType types i).isSome :=
      findType_isSome types i (h i (by simp))
    cases hf : findType types i with
    | none => rw [hf] at hi; simp at hi
    | some t =>
      simp only [List.filterMap_cons, List.map_cons, hf, lookupType]
      rw [ih (fun j hj => h j (by simp [hj]))]
      simp

theorem lookupType_spec (types : List LocationType) (i : Nat)
    (hi : i ∈ typeIds types) :
    lookupType types i ∈ types ∧ (lookupType types i).id = i := by
  have hs : (findType types i).isSome := findType_isSome types i hi
  cases hf : findType types i with
  | none => rw [hf] at hs; simp at hs
  | some t =>
    rcases findType_eq_some types i t hf with ⟨h1, h2⟩
    simp only [lookupType, hf, Option.getD_some]
    exact ⟨h1, h2⟩

theorem lookupType_self (types : List LocationType)
    (hids : (typeIds types).Nodup) (t : LocationType) (ht : t ∈ types) :
    lookupType types t.id = t := by
  simp [lookupType, findType_self types hids t ht]

theorem parentsOf_lookup (types : List LocationType) (i : Nat)
    (hi : i ∈ typeIds types) :
    parentsOf types i = (lookupType types i).allowed_parents := by
  have hs : (findType types i).isSome := findType_isSome types i hi
  cases hf : findType types i with
  | none => rw [hf] at hs; simp at hs
  | some t => simp [parentsOf, lookupType, hf]

theorem count_map_lookup (types : List LocationType)
    (hids : (typeIds types).Nodup) :
    ∀ (l : List Nat), l.Nodup → (∀ i ∈ l, i ∈ typeIds types) →
      ∀ t : LocationType, (l.map (lookupType types)).count t =
        if t ∈ types ∧ t.id ∈ l then 1 else 0 := by
  intro l
  induction l with
  | nil =>
    intro _ _ t
    simp
  | cons i l ih =>
    intro hnd hsub t
    rcases List.nodup_cons.mp hnd with ⟨hil, hnd'⟩
    have hi : i ∈ typeIds types := hsub i (by simp)
    have hih := ih hnd' (fun j hj => hsub j (by simp [hj])) t
    simp only [List.map_cons, List.count_cons, hih]
    by_cases heq : lookupType types i = t
    · have hti : t.id = i := by rw [← heq]; exact (lookupType_spec types i hi).2
      have htm : t ∈ types := by rw [← heq]; exact (lookupType_spec types i hi).1
      have htl : t.id ∉ l := by rw [hti]; exact hil
      simp [heq, htm, hti, hil]
    · have hne : ¬(t ∈ types ∧ t.id = i) := by
        rintro ⟨htm, hti⟩
        exact heq (by rw [← hti, lookupType_self types hids t htm])
      have hbeq : ¬((lookupType types i == t) = true) := by simp [heq]
      rw [if_neg hbeq]
      by_cases hc : t ∈ types ∧ t.id ∈ l
      · have hc2 : t ∈ types ∧ t.id ∈ i :: l := ⟨hc.1, by simp [hc.2]⟩
        simp [hc, hc2]
      · have hc2 : ¬(t ∈ types ∧ t.id ∈ i :: l) := by
          rintro ⟨h1, h2⟩
          rcases List.mem_cons.mp h2 with h3 | h3
          · exact hne ⟨h1, h3⟩
          · exact hc ⟨h1, h3⟩
        rw [if_neg hc, if_neg (by simpa using hc2)]

theorem count_filter_types (p : LocationType → Bool) (t : LocationType) :
    ∀ l : List LocationType,
      (l.filter p).count t = if p t then l.count t else 0 := by
  intro l
  induction l with
  | nil => simp
  | cons a l ih =>
    by_cases hpa : p a
    · rw [List.filter_cons_of_pos hpa]
      by_cases hat : a = t
      · subst hat
        simp [List.count_cons_self, ih, hpa]
      · rw [List.count_cons_of_ne (fun h => hat h.symm),
          List.count_cons_of_ne (fun h => hat h.symm), ih]
    · rw [List.filter_cons_of_neg (by simpa using hpa)]
      by_cases hat : a = t
      · subst hat
        simp only [List.count_cons_self, ih]
        simp [hpa]
      · rw [ih, List.count_cons_of_ne (fun h => hat h.symm)]

theorem mem_take_get (l : List Nat) (j p : Nat) (hp : p ∈ l.take j) :
    ∃ k, ∃ hk : k < l.length, k < j ∧ l.get ⟨k, hk⟩ = p := by
  rcases List.mem_iff_getElem.mp hp with ⟨k, hk, hget⟩
  have hkl : k < l.length := by
    have := hk
    simp only [List.length_take] at this
    omega
  have hkj : k < j := by
    have := hk
    simp only [List.length_take] at this
    omega
  refine ⟨k, hkl, hkj, ?_⟩
  have hpre : List.IsPrefix (l.take j) l := List.take_prefix j l
  have h2 := hpre.getElem hk
  rw [List.get_eq_getElem, ← h2]
  exact hget

theorem kahnInit_inv (types : List LocationType)
    (hids : (typeIds types).Nodup) :
    KahnInv types [] (kahnQueue0 types) (degInit types) := by
  have hq0perm := sortIdsByName_perm types
    ((typeIds types).filter (fun i => degInit types i = 0))
  have hq0mem : ∀ i, i ∈ kahnQueue0 types ↔
      i ∈ typeIds types ∧ degInit types i = 0 := by
    intro i
    unfold kahnQueue0
    rw [hq0perm.mem_iff, List.mem_filter]
    simp
  have hfilter_nil : ∀ i, (parentsOf types i).filter
      (fun p => p ∉ ([] : List Nat)) = parentsOf types i := by
    intro i
    apply List.filter_eq_self.mpr
    intro p _
    simp
  refine ⟨?_, ?_, ?_, ?_, ?_, ?_⟩
  · simpa using hq0perm.nodup_iff.mpr (hids.filter _)
  · intro i hi
    rw [List.nil_append] at hi
    exact ((hq0mem i).mp hi).1
  · intro i _
    rw [hfilter_nil i]
    rfl
  · intro i hi p hp
    have hz := ((hq0mem i).mp hi).2
    unfold degInit at hz
    have : (parentsOf types i).length = 0 := by
      omega
    rw [List.length_eq_zero.mp this] at hp
    exact absurd hp (List.not_mem_nil p)
  · intro j hj
    simp at hj
  · intro i hi hz
    rw [List.nil_append]
    exact (hq0mem i).mpr ⟨hi, hz⟩

theorem kahnSortedIds_inv (types : List LocationType)
    (hids : (typeIds types).Nodup)
    (hclosed : ∀ t ∈ types, ∀ p ∈ t.allowed_parents, p ∈ typeIds types)
    (hpnd : ∀ t ∈ types, t.allowed_parents.Nodup) :
    ∃ deg', KahnInv types (kahnSortedIds types) [] deg' := by
  unfold kahnSortedIds
  exact kahnLoop_inv types hids hclosed hpnd (types.length + 1)
    (kahnQueue0 types) [] (degInit types) (kahnInit_inv types hids)
    (by simp)

theorem all_ids_emitted (types : List LocationType)
    (hclosed : ∀ t ∈ types, ∀ p ∈ t.allowed_parents, p ∈ typeIds types)
    (E : List Nat) (deg' : Nat → Int)
    (hinv : KahnInv types E [] deg')
    (hacyc : ∀ v, ¬ Relation.TransGen
      (fun p c => p ∈ parentsOf types c) v v) :
    ∀ i ∈ typeIds types, i ∈ E := by
  obtain ⟨hnd, hmem, hdeg, hqpar, htopo, hzero⟩ := hinv
  by_contra hcon
  push_neg at hcon
  obtain ⟨i0, hi0, hi0E⟩ := hcon
  have hU0 : i0 ∈ (typeIds types).filter (fun i => i ∉ E) :=
    List.mem_filter.mpr ⟨hi0, by simpa using hi0E⟩
  have hUstep : ∀ v ∈ (typeIds types).filter (fun i => i ∉ E),
      ∃ p, p ∈ parentsOf types v ∧
        p ∈ (typeIds types).filter (fun i => i ∉ E) := by
    intro v hv
    rcases List.mem_filter.mp hv with ⟨hvids, hvE⟩
    by_contra hno
    push_neg at hno
    have hall : ∀ p ∈ parentsOf types v, p ∈ E := by
      intro p hp
      have hpids : p ∈ typeIds types :=
        parentsOf_subset_ids types hclosed v p hp
      by_contra hpe
      exact hno p hp (List.mem_filter.mpr ⟨hpids, by simpa using hpe⟩)
    have hfilter : (parentsOf types v).filter (fun p => p ∉ E) = [] := by
      rw [List.filter_eq_nil_iff]
      intro p hp
      simpa using hall p hp
    have hdv : deg' v = 0 := by
      rw [hdeg v hvids, hfilter]
      rfl
    have hvin := hzero v hvids hdv
    rw [List.append_nil] at hvin
    exact (by simpa using hvE : v ∉ E) hvin
  classical
  let f : {v // v ∈ (typeIds types).filter (fun i => i ∉ E)} →
      {v // v ∈ (typeIds types).filter (fun i => i ∉ E)} :=
    fun v => ⟨(hUstep v.1 v.2).choose, (hUstep v.1 v.2).choose_spec.2⟩
  have hf : ∀ v, (f v).1 ∈ parentsOf types v.1 :=
    fun v => (hUstep v.1 v.2).choose_spec.1
  let seq : Nat → {v // v ∈ (typeIds types).filter (fun i => i ∉ E)} :=
    fun n => f^[n] ⟨i0, hU0⟩
  have hseq : ∀ n, seq (n + 1) = f (seq n) := by
    intro n
    simp only [seq]
    rw [Function.iterate_succ_apply']
  have hchain : ∀ n k, Relation.TransGen
      (fun p c => p ∈ parentsOf types c) (seq (n + 1 + k)).1 (seq n).1 := by
    intro n k
    induction k with
    | zero =>
      refine Relation.TransGen.single ?_
      rw [hseq n]
      exact hf (seq n)
    | succ k ih =>
      refine Relation.TransGen.head ?_ ih
      have hidx : n + 1 + (k + 1) = (n + 1 + k) + 1 := by omega
      rw [hidx, hseq (n + 1 + k)]
      exact hf (seq (n + 1 + k))
  have hmaps : ∀ a : Fin (((typeIds types).filter
      (fun i => i ∉ E)).toFinset.card + 1), a ∈ Finset.univ →
      (seq a.1).1 ∈ ((typeIds types).filter (fun i => i ∉ E)).toFinset :=
    fun a _ => List.mem_toFinset.mpr (seq a.1).2
  have hcard : (((typeIds types).filter (fun i => i ∉ E)).toFinset.card) <
      (Finset.univ : Finset (Fin (((typeIds types).filter
        (fun i => i ∉ E)).toFinset.card + 1))).card := by
    simp
  obtain ⟨x, _, y, _, hxy, hgxy⟩ :=
    Finset.exists_ne_map_eq_of_card_lt_of_maps_to hcard hmaps
  have hvalne : x.1 ≠ y.1 := fun h => hxy (Fin.ext h)
  rcases Nat.lt_or_ge x.1 y.1 with hlt | hge
  · have hb : y.1 = x.1 + 1 + (y.1 - x.1 - 1) := by omega
    have hch := hchain x.1 (y.1 - x.1 - 1)
    rw [← hb] at hch
    rw [← hgxy] at hch
    exact hacyc (seq x.1).1 hch
  · have hlt2 : y.1 < x.1 := by omega
    have hb : x.1 = y.1 + 1 + (x.1 - y.1 - 1) := by omega
    have hch := hchain y.1 (x.1 - y.1 - 1)
    rw [← hb] at hch
    rw [hgxy] at hch
    exact hacyc (seq y.1).1 hch

/-- C4: under the database constraints (unique ids, parent references
into the table, no duplicate parent links), `_get_sorted_location_types`
always returns a permutation of the types table — each type exactly once
— and when the allowed-parents relation is acyclic, every type appears
after all of its allowed parents. -/
theorem get_sorted_location_types_spec (types : List LocationType)
    (hids : (typeIds types).Nodup)
    (hclosed : ∀ t ∈ types, ∀ p ∈ t.allowed_parents, p ∈ typeIds types)
    (hpnd : ∀ t ∈ types, t.allowed_parents.Nodup) :
    List.Perm (getSortedLocationTypes types) types ∧
      (∃ suffix, getSortedLocationTypes types =
          ((kahnSortedIds types).filterMap (findType types)) ++ suffix ∧
        List.Sorted (fun a b : LocationType => a.name ≤ b.name) suffix ∧
        ∀ t : LocationType, t ∈ suffix ↔
          t ∈ types ∧ t.id ∉ kahnSortedIds types) ∧
      ((∀ v, ¬ Relation.TransGen (fun p c => p ∈ parentsOf types c) v v) →
        ∀ j, ∀ hj : j < (getSortedLocationTypes types).length,
          ∀ p ∈ ((getSortedLocationTypes types).get ⟨j, hj⟩).allowed_parents,
            ∃ k, ∃ hk : k < (getSortedLocationTypes types).length,
              k < j ∧ ((getSortedLocationTypes types).get ⟨k, hk⟩).id = p) := by
  by_cases hemp : types.isEmpty
  · have htn : types = [] := List.isEmpty_iff.mp hemp
    subst htn
    refine ⟨?_, ?_, ?_⟩
    · simp [getSortedLocationTypes]
    · exact ⟨[], rfl, List.sorted_nil, by simp⟩
    · intro _ j hj
      simp [getSortedLocationTypes] at hj
  · obtain ⟨deg', hinv⟩ := kahnSortedIds_inv types hids hclosed hpnd
    have hnd0 : (kahnSortedIds types).Nodup := by
      have := hinv.1
      rwa [List.append_nil] at this
    have hEsub : ∀ i ∈ kahnSortedIds types, i ∈ typeIds types := fun i hi =>
      hinv.2.1 i (by simp [hi])
    have htopo0 := hinv.2.2.2.2.1
    have hst : (kahnSortedIds types).filterMap (findType types) =
        (kahnSortedIds types).map (lookupType types) :=
      filterMap_findType_eq_map types (kahnSortedIds types) hEsub
    have htypes_nodup : types.Nodup := List.Nodup.of_map _ hids
    have hcount_types : ∀ t : LocationType,
        types.count t = if t ∈ types then 1 else 0 := by
      intro t
      by_cases ht : t ∈ types
      · rw [if_pos ht]
        exact List.count_eq_one_of_mem htypes_nodup ht
      · rw [if_neg ht]
        exact List.count_eq_zero_of_not_mem ht
    have hcount_sorted := count_map_lookup types hids (kahnSortedIds types)
      hnd0 hEsub
    have hmapid : ((kahnSortedIds types).map (lookupType types)).map
        (fun u => u.id) = kahnSortedIds types := by
      rw [List.map_map]
      have h1 : (kahnSortedIds types).map
          ((fun u : LocationType => u.id) ∘ lookupType types) =
          (kahnSortedIds types).map id :=
        List.map_eq_map_iff.mpr (fun i hi => (lookupType_spec types i
          (hEsub i hi)).2)
      rw [h1, List.map_id]
    refine ⟨?_, ?_, ?_⟩
    · -- permutation, in both branches of the length test
      unfold getSortedLocationTypes
      rw [if_neg hemp]
      by_cases hlen : ((kahnSortedIds types).filterMap
          (findType types)).length ≠ types.length
      · rw [if_pos hlen]
        apply List.perm_iff_count.mpr
        intro t
        rw [List.count_append, hst, hcount_sorted t,
          (sortTypesByName_perm _).count_eq]
        have hpred : types.filter (fun t' =>
            t'.id ∉ ((kahnSortedIds types).map
              (lookupType types)).map (fun u => u.id)) =
            types.filter (fun t' => t'.id ∉ kahnSortedIds types) := by
          rw [hmapid]
        rw [hpred, count_filter_types _ t, hcount_types t]
        by_cases htm : t ∈ types
        · by_cases hte : t.id ∈ kahnSortedIds types
          · simp [htm, hte]
          · simp [htm, hte]
        · simp [htm]
      · rw [if_neg hlen]
        push_neg at hlen
        have hElen : (kahnSortedIds types).length = (typeIds types).length := by
          rw [hst, List.length_map] at hlen
          rw [hlen]
          simp [typeIds]
        have hEperm : List.Perm (kahnSortedIds types) (typeIds types) :=
          (List.subperm_of_subset hnd0 hEsub).perm_of_length_le
            (le_of_eq hElen.symm)
        apply List.perm_iff_count.mpr
        intro t
        rw [hst, hcount_sorted t, hcount_types t]
        by_cases htm : t ∈ types
        · have hid : t.id ∈ kahnSortedIds types :=
            hEperm.mem_iff.mpr (List.mem_map.mpr ⟨t, htm, rfl⟩)
          simp [htm, hid]
        · simp [htm]
    · -- the appended remainder: name-sorted, exactly the non-emitted types
      haveI hTot : IsTotal LocationType (fun a b => a.name ≤ b.name) :=
        ⟨fun a b => le_total a.name b.name⟩
      haveI hTrans : IsTrans LocationType (fun a b => a.name ≤ b.name) :=
        ⟨fun a b c hab hbc => le_trans hab hbc⟩
      unfold getSortedLocationTypes
      rw [if_neg hemp]
      by_cases hlen : ((kahnSortedIds types).filterMap
          (findType types)).length ≠ types.length
      · rw [if_pos hlen]
        refine ⟨sortTypesByName (types.filter (fun t =>
            t.id ∉ ((kahnSortedIds types).filterMap
              (findType types)).map (fun u => u.id))), rfl, ?_, ?_⟩
        · exact List.sorted_insertionSort _ _
        · intro t
          rw [(sortTypesByName_perm _).mem_iff]
          rw [hst, hmapid]
          rw [List.mem_filter]
          simp
      · rw [if_neg hlen]
        push_neg at hlen
        have hElen : (kahnSortedIds types).length = (typeIds types).length := by
          rw [hst, List.length_map] at hlen
          rw [hlen]
          simp [typeIds]
        have hEperm : List.Perm (kahnSortedIds types) (typeIds types) :=
          (List.subperm_of_subset hnd0 hEsub).perm_of_length_le
            (le_of_eq hElen.symm)
        refine ⟨[], by simp, List.sorted_nil, ?_⟩
        intro t
        simp only [List.not_mem_nil, false_iff]
        rintro ⟨htm, hte⟩
        exact hte (hEperm.mem_iff.mpr (List.mem_map.mpr ⟨t, htm, rfl⟩))
    · -- topological order under acyclicity
      intro hacyc
      have hall : ∀ i ∈ typeIds types, i ∈ kahnSortedIds types :=
        all_ids_emitted types hclosed (kahnSortedIds types) deg' hinv hacyc
      have hEperm : List.Perm (kahnSortedIds types) (typeIds types) :=
        (List.subperm_of_subset hnd0 hEsub).antisymm
          (List.subperm_of_subset hids hall)
      have hlen_eq : ((kahnSortedIds types).filterMap
          (findType types)).length = types.length := by
        rw [hst, List.length_map, hEperm.length_eq]
        simp [typeIds]
      have hres : getSortedLocationTypes types =
          (kahnSortedIds types).map (lookupType types) := by
        unfold getSortedLocationTypes
        rw [if_neg hemp, if_neg (by simp [hlen_eq]), hst]
      rw [hres]
      intro j hj p hp
      have hjE : j < (kahnSortedIds types).length := by
        rw [List.length_map] at hj
        exact hj
      have hget : ((kahnSortedIds types).map (lookupType types)).get ⟨j, hj⟩ =
          lookupType types ((kahnSortedIds types).get ⟨j, hjE⟩) := by
        simp
      rw [hget] at hp
      have hjid : (kahnSortedIds types).get ⟨j, hjE⟩ ∈ typeIds types :=
        hEsub _ (List.get_mem _ _ _)
      rw [← parentsOf_lookup types _ hjid] at hp
      have hptake := htopo0 j hjE p hp
      rcases mem_take_get (kahnSortedIds types) j p hptake with
        ⟨k, hk, hkj, hkp⟩
      have hkL : k < ((kahnSortedIds types).map (lookupType types)).length := by
        rw [List.length_map]
        exact hk
      refine ⟨k, hkL, hkj, ?_⟩
      have hgetk : ((kahnSortedIds types).map (lookupType types)).get
          ⟨k, hkL⟩ = lookupType types ((kahnSortedIds types).get ⟨k, hk⟩) := by
        simp
      rw [hgetk]
      have hkid : (kahnSortedIds types).get ⟨k, hk⟩ ∈ typeIds types :=
        hEsub _ (List.get_mem _ _ _)
      rw [(lookupType_spec types _ hkid).2]
      exact hkp

theorem acyclic_of_rank (types : List LocationType) (rank : Nat → Nat)
    (hrank : ∀ t ∈ types, ∀ p ∈ t.allowed_parents, rank p < rank t.id) :
    ∀ v, ¬ Relation.TransGen (fun p c => p ∈ parentsOf types c) v v := by
  have hstep : ∀ p c, p ∈ parentsOf types c → rank p < rank c := by
    intro p c hp
    unfold parentsOf at hp
    cases hf : findType types c with
    | none => rw [hf] at hp; simp at hp
    | some t =>
      rw [hf] at hp
      rcases findType_eq_some types c t hf with ⟨h1, h2⟩
      have := hrank t h1 p hp
      rwa [h2] at this
  have hmono : ∀ a b, Relation.TransGen
      (fun p c => p ∈ parentsOf types c) a b → rank a < rank b := by
    intro a b h
    induction h with
    | single h1 => exact hstep _ _ h1
    | tail _ h1 ih => exact lt_trans ih (hstep _ _ h1)
  intro v hv
  exact lt_irrefl _ (hmono v v hv)

/-- Witness for C4: two types, "A" (id 1, no parents) and "B" (id 2,
allowed parent "A"); the hypotheses hold, the display order is a
permutation of the table, and — the relation being acyclic, witnessed by
the identity ranking — every type comes after its allowed parents. -/
theorem get_sorted_location_types_spec_witness :
    ((typeIds [⟨1, "A", "", [], false, false, false, none, none⟩,
        ⟨2, "B", "", [1], false, false, false, none, none⟩]).Nodup) ∧
      List.Perm (getSortedLocationTypes
        [⟨1, "A", "", [], false, false, false, none, none⟩,
         ⟨2, "B", "", [1], false, false, false, none, none⟩])
        [⟨1, "A", "", [], false, false, false, none, none⟩,
         ⟨2, "B", "", [1], false, false, false, none, none⟩] ∧
      (∀ j, ∀ hj : j < (getSortedLocationTypes
          [⟨1, "A", "", [], false, false, false, none, none⟩,
           ⟨2, "B", "", [1], false, false, false, none, none⟩]).length,
        ∀ p ∈ ((getSortedLocationTypes
          [⟨1, "A", "", [], false, false, false, none, none⟩,
           ⟨2, "B", "", [1], false, false, false, none, none⟩]).get
            ⟨j, hj⟩).allowed_parents,
          ∃ k, ∃ hk : k < (getSortedLocationTypes
            [⟨1, "A", "", [], false, false, false, none, none⟩,
             ⟨2, "B", "", [1], false, false, false, none, none⟩]).length,
            k < j ∧ ((getSortedLocationTypes
              [⟨1, "A", "", [], false, false, false, none, none⟩,
               ⟨2, "B", "", [1], false, false, false, none, none⟩]).get
                ⟨k, hk⟩).id = p) := by
  refine ⟨by decide, ?_, ?_⟩
  · exact (get_sorted_location_types_spec
      [⟨1, "A", "", [], false, false, false, none, none⟩,
       ⟨2, "B", "", [1], false, false, false, none, none⟩]
      (by decide) (by decide) (by decide)).1
  · exact (get_sorted_location_types_spec
      [⟨1, "A", "", [], false, false, false, none, none⟩,
       ⟨2, "B", "", [1], false, false, false, none, none⟩]
      (by decide) (by decide) (by decide)).2.2
      (acyclic_of_rank _ (fun i => i) (by decide))
